import Mathlib

/-!
Verification development for a document-editing engine with a line-oriented
text buffer and an XML element tree, both mutated through reversible commands
with undo/redo stacks.

Go strings are modelled as `List Char`; Go slices as `List`; Go `int` as `Int`;
Go runtime panics (index out of range, nil dereference) as `Option` results
(`none` = panic).  Each command object is a record holding both its parameters
and the captured undo state, mirroring the Go structs; `Execute`/`Undo` take
and return the command record together with the editor state, mirroring the
in-place field mutation of the Go methods.
-/

/-- Go strings, modelled as lists of characters (byte-level slicing in the
source corresponds to positional slicing here). -/
abbrev Str := List Char

namespace TextEd

/-- `strings.Split(text, "\n")`: fragments of `s` between newline characters.
Splitting the empty string yields one empty fragment, as in Go. -/
def splitNL : Str → List Str
  | [] => [[]]
  | c :: cs =>
    match splitNL cs with
    | [] => [[c]]
    | h :: t => if c = '\n' then [] :: h :: t else (c :: h) :: t

/-- The text editor state touched by the text commands: the ordered line
sequence `lines` and the dirty flag `isModified`. -/
structure TextEditor where
  lines : List Str
  isModified : Bool
deriving DecidableEq

/-- `InsertCommand` (commands.go): target 1-based line/column, the text to
insert, and the captured undo state (`prevLine`, `splitLines`, `executed`). -/
structure InsertCommand where
  line : Int
  col : Int
  text : Str
  prevLine : Str
  splitLines : List Str
  executed : Bool
deriving DecidableEq

/-- `NewInsertCommand`: fresh command with zero-valued undo state. -/
def NewInsertCommand (line col : Int) (text : Str) : InsertCommand :=
  { line := line, col := col, text := text,
    prevLine := [], splitLines := [], executed := false }

/-- `InsertCommand.validate`: an empty file accepts only `line=1, col=1`;
otherwise `1 ≤ line ≤ lineCount` and `1 ≤ col ≤ len(targetLine)+1`. -/
def InsertCommand.validate (cmd : InsertCommand) (ed : TextEditor) : Bool :=
  let lineCount : Int := ed.lines.length
  if lineCount = 0 then
    cmd.line = 1 && cmd.col = 1
  else if cmd.line < 1 || cmd.line > lineCount then
    false
  else
    match ed.lines.get? (cmd.line - 1).toNat with
    | none => false
    | some targetLine => decide (1 ≤ cmd.col) && decide (cmd.col ≤ targetLine.length + 1)

/-- `InsertCommand.Execute`: validates, captures `prevLine`, splits the text on
newlines, and splices.  `none` models the Go index-out-of-range panic of
`cmd.editor.lines[lineIdx]` (reachable when the buffer is empty, since
`validate` accepts `1,1` there). -/
def InsertCommand.Execute (cmd : InsertCommand) (ed : TextEditor) :
    Option (InsertCommand × TextEditor) :=
  if ¬ cmd.validate ed then some (cmd, ed)
  else
    let lineIdx := (cmd.line - 1).toNat
    let colIdx := (cmd.col - 1).toNat
    match ed.lines.get? lineIdx with
    | none => none
    | some prevLine =>
      let cmd := { cmd with prevLine := prevLine, splitLines := splitNL cmd.text }
      if cmd.splitLines.length = 1 then
        let newLine := prevLine.take colIdx ++ cmd.text ++ prevLine.drop colIdx
        some ({ cmd with executed := true },
              { lines := ed.lines.set lineIdx newLine, isModified := true })
      else
        let n := cmd.splitLines.length
        let firstPart := prevLine.take colIdx ++ cmd.splitLines.headD []
        let middleParts := (cmd.splitLines.take (n - 1)).drop 1
        let lastPart := cmd.splitLines.getLastD [] ++ prevLine.drop colIdx
        let newLines := ed.lines.take lineIdx ++ [firstPart] ++ middleParts
          ++ [lastPart] ++ ed.lines.drop (lineIdx + 1)
        some ({ cmd with executed := true },
              { lines := newLines, isModified := true })

/-- `InsertCommand.Undo`: no-op unless executed; restores the original line and
removes the lines the multi-line splice introduced. -/
def InsertCommand.Undo (cmd : InsertCommand) (ed : TextEditor) : TextEditor :=
  if ¬ cmd.executed then ed
  else
    let lineIdx := (cmd.line - 1).toNat
    if cmd.splitLines.length = 1 then
      { lines := ed.lines.set lineIdx cmd.prevLine, isModified := true }
    else
      let removeCount := cmd.splitLines.length - 1
      { lines := ed.lines.take lineIdx ++ [cmd.prevLine]
          ++ ed.lines.drop (lineIdx + 1 + removeCount),
        isModified := true }

/-- `DeleteCommand` (commands.go): 1-based line/column, deletion length, and
captured undo state. -/
structure DeleteCommand where
  line : Int
  col : Int
  length : Int
  prevLine : Str
  executed : Bool
deriving DecidableEq

/-- `NewDeleteCommand`: fresh command with zero-valued undo state. -/
def NewDeleteCommand (line col length : Int) : DeleteCommand :=
  { line := line, col := col, length := length, prevLine := [], executed := false }

/-- `DeleteCommand.validate`: `1 ≤ line ≤ lineCount`, `0 ≤ col-1 < len(target)`,
`length > 0`, and `col-1+length ≤ len(target)`. -/
def DeleteCommand.validate (cmd : DeleteCommand) (ed : TextEditor) : Bool :=
  let lineCount : Int := ed.lines.length
  if cmd.line < 1 || cmd.line > lineCount then false
  else
    match ed.lines.get? (cmd.line - 1).toNat with
    | none => false
    | some targetLine =>
      let lineLen : Int := targetLine.length
      let colIdx := cmd.col - 1
      if colIdx < 0 || colIdx ≥ lineLen || cmd.length ≤ 0 then false
      else if colIdx + cmd.length > lineLen then false
      else true

/-- `DeleteCommand.Execute`: validates, captures the pre-delete line, removes
the character range in place. -/
def DeleteCommand.Execute (cmd : DeleteCommand) (ed : TextEditor) :
    Option (DeleteCommand × TextEditor) :=
  if ¬ cmd.validate ed then some (cmd, ed)
  else
    let lineIdx := (cmd.line - 1).toNat
    let colIdx := (cmd.col - 1).toNat
    match ed.lines.get? lineIdx with
    | none => none
    | some prevLine =>
      let newLine := prevLine.take colIdx ++ prevLine.drop (colIdx + cmd.length.toNat)
      some ({ cmd with prevLine := prevLine, executed := true },
            { lines := ed.lines.set lineIdx newLine, isModified := true })

/-- `DeleteCommand.Undo`: no-op unless executed; restores the captured line. -/
def DeleteCommand.Undo (cmd : DeleteCommand) (ed : TextEditor) : TextEditor :=
  if ¬ cmd.executed then ed
  else
    { lines := ed.lines.set (cmd.line - 1).toNat cmd.prevLine, isModified := true }

/-- `ReplaceCommand` (commands.go): a delete sub-command and an insert
sub-command at the same coordinates. -/
structure ReplaceCommand where
  line : Int
  col : Int
  length : Int
  text : Str
  deleteCmd : DeleteCommand
  insertCmd : InsertCommand
  executed : Bool
deriving DecidableEq

/-- `NewReplaceCommand`: wires the delete and insert sub-commands at the same
`(line, col)`. -/
def NewReplaceCommand (line col length : Int) (text : Str) : ReplaceCommand :=
  { line := line, col := col, length := length, text := text,
    deleteCmd := NewDeleteCommand line col length,
    insertCmd := NewInsertCommand line col text,
    executed := false }

/-- `ReplaceCommand.Execute`: run the delete; abort (reported not executed) if
it failed; otherwise run the insert and report its status. -/
def ReplaceCommand.Execute (cmd : ReplaceCommand) (ed : TextEditor) :
    Option (ReplaceCommand × TextEditor) := do
  let (d, ed1) ← cmd.deleteCmd.Execute ed
  if ¬ d.executed then
    return ({ cmd with deleteCmd := d }, ed1)
  else
    let (i, ed2) ← cmd.insertCmd.Execute ed1
    return ({ cmd with deleteCmd := d, insertCmd := i, executed := i.executed }, ed2)

/-- `ReplaceCommand.Undo`: no-op unless executed; undo the insert, then the
delete. -/
def ReplaceCommand.Undo (cmd : ReplaceCommand) (ed : TextEditor) : TextEditor :=
  if ¬ cmd.executed then ed
  else
    let ed1 := cmd.insertCmd.Undo ed
    let ed2 := cmd.deleteCmd.Undo ed1
    { ed2 with isModified := true }

end TextEd

/- Further definitions (XML editor model, serializer and parser) are inserted
below; all theorem sections follow the definitions. -/




namespace XmlEd

/-- `XMLElement` (xml_editor.go): tag, canonical id, attribute map, text
payload, parent back-reference and ordered children.  Elements live in a heap
(`List XMLElement`) addressed by index; indices model Go pointers, and
`parent` / `children` hold such references. -/
structure XMLElement where
  tag : String
  id : String
  attrs : List (String × String)
  text : String
  parent : Option Nat
  children : List Nat
deriving DecidableEq

/-- Go map lookup `m[k]` on an association-list model of `map[string]V`
(keys kept unique by `mapSet` / `mapDel`). -/
def mapGet {β : Type} (m : List (String × β)) (k : String) : Option β :=
  match m.find? (fun p => p.1 == k) with
  | none => none
  | some p => some p.2

/-- Go map update `m[k] = v`. -/
def mapSet {β : Type} (m : List (String × β)) (k : String) (v : β) :
    List (String × β) :=
  m.filter (fun p => !(p.1 == k)) ++ [(k, v)]

/-- Go map deletion `delete(m, k)`. -/
def mapDel {β : Type} (m : List (String × β)) (k : String) : List (String × β) :=
  m.filter (fun p => !(p.1 == k))

/-- `escapeXML` character expansion: the net effect of the source's sequence
of `strings.ReplaceAll` calls (`&` first, then `<`, `>`, `"`, `'`; the later
replacements never touch characters introduced by the earlier ones). -/
def escapeXMLChars : Str → Str
  | [] => []
  | ch :: rest =>
    (if ch = '&' then '&' :: 'a' :: 'm' :: 'p' :: [';']
     else if ch = '<' then '&' :: 'l' :: 't' :: [';']
     else if ch = '>' then '&' :: 'g' :: 't' :: [';']
     else if ch = '"' then '&' :: 'q' :: 'u' :: 'o' :: 't' :: [';']
     else if ch = '\'' then '&' :: 'a' :: 'p' :: 'o' :: 's' :: [';']
     else [ch]) ++ escapeXMLChars rest

/-- `escapeXML` on Go strings. -/
def escapeXML (s : String) : String := String.mk (escapeXMLChars s.data)

/-- `InsertBeforeCommand` (commands.go), without the editor back-pointer. -/
structure InsertBeforeCommand where
  tag : String
  newId : String
  targetId : String
  text : String
  insertedElem : Option Nat
  success : Bool
deriving DecidableEq

/-- `AppendChildCommand` (commands.go). -/
structure AppendChildCommand where
  tag : String
  newId : String
  parentId : String
  text : String
  insertedElem : Option Nat
  success : Bool
deriving DecidableEq

/-- `EditIdCommand` (commands.go). -/
structure EditIdCommand where
  oldId : String
  newId : String
  prevId : String
  success : Bool
deriving DecidableEq

/-- `EditTextCommand` (commands.go). -/
structure EditTextCommand where
  elementId : String
  text : String
  prevText : String
  success : Bool
deriving DecidableEq

/-- `XmlDeleteCommand` (commands.go). -/
structure XmlDeleteCommand where
  elementId : String
  deletedElem : Option Nat
  parentElem : Option Nat
  index : Int
  success : Bool
  deletedIdMap : Option (List (String × Nat))
deriving DecidableEq

/-- The closed set of XML command variants held by the undo/redo stacks. -/
inductive Cmd where
  | ib (c : InsertBeforeCommand)
  | ac (c : AppendChildCommand)
  | eid (c : EditIdCommand)
  | etx (c : EditTextCommand)
  | del (c : XmlDeleteCommand)
deriving DecidableEq

/-- `XmlEditor` (xml_editor.go): element heap, root reference, id index,
dirty flag and the undo/redo stacks.  (The raw `lines`, log flag and
workspace collaborator are outside the mutation core modelled here.) -/
structure XmlEditor where
  heap : List XMLElement
  root : Nat
  idMap : List (String × Nat)
  isModified : Bool
  undoStack : List Cmd
  redoStack : List Cmd
deriving DecidableEq

def NewInsertBeforeCommand (tag newId targetId text : String) : InsertBeforeCommand :=
  ⟨tag, newId, targetId, text, none, false⟩

def NewAppendChildCommand (tag newId parentId text : String) : AppendChildCommand :=
  ⟨tag, newId, parentId, text, none, false⟩

def NewEditIdCommand (oldId newId : String) : EditIdCommand :=
  ⟨oldId, newId, "", false⟩

def NewEditTextCommand (elementId text : String) : EditTextCommand :=
  ⟨elementId, text, "", false⟩

def NewXmlDeleteCommand (elementId : String) : XmlDeleteCommand :=
  ⟨elementId, none, none, 0, false, none⟩

/-- `findNodeById`: depth-first search by id from a node (the AppendChild
fallback).  `fuel` bounds the recursion depth (the Go recursion is structural
over the live tree; outer `none` = fuel exhausted or dangling reference,
neither of which arises on tree-shaped heaps). -/
def findNodeById (h : List XMLElement) (fuel : Nat) (r : Nat) (tid : String) :
    Option (Option Nat) :=
  match fuel with
  | 0 => none
  | fuel + 1 =>
    match h.get? r with
    | none => none
    | some e =>
      if e.id = tid then some (some r)
      else
        e.children.foldl (fun acc c =>
          match acc with
          | none => none
          | some (some x) => some (some x)
          | some none => findNodeById h fuel c tid) (some none)

/-- The `for i, child := range children` search by `child.id` used by
InsertBefore and the insert/append undos: index of the first child whose id
equals `tid` (`some none` = not found, Go's `-1`). -/
def findChildIdx (h : List XMLElement) (tid : String) : List Nat → Option (Option Nat)
  | [] => some none
  | c :: rest =>
    match h.get? c with
    | none => none
    | some e =>
      if e.id = tid then some (some 0)
      else
        match findChildIdx h tid rest with
        | none => none
        | some none => some none
        | some (some i) => some (some (i + 1))

/-- `recursiveSaveNodes`: collect the node and its descendants into the
command's `deletedIdMap`, keyed by id — stopping, as the source does, at any
node whose id is empty (its subtree is not visited). -/
def recursiveSaveNodes (h : List XMLElement) (fuel : Nat) (r : Nat)
    (acc : List (String × Nat)) : Option (List (String × Nat)) :=
  match fuel with
  | 0 => none
  | fuel + 1 =>
    match h.get? r with
    | none => none
    | some e =>
      if e.id = "" then some acc
      else
        e.children.foldl (fun a c =>
          match a with
          | none => none
          | some m => recursiveSaveNodes h fuel c m) (some (mapSet acc e.id r))

/-- `recursiveDeleteIdMap`: remove the subtree's ids from the editor's index,
children first — with the same empty-id pruning as `recursiveSaveNodes`. -/
def recursiveDeleteIdMap (h : List XMLElement) (fuel : Nat) (r : Nat)
    (m : List (String × Nat)) : Option (List (String × Nat)) :=
  match fuel with
  | 0 => none
  | fuel + 1 =>
    match h.get? r with
    | none => none
    | some e =>
      if e.id = "" then some m
      else
        match e.children.foldl (fun a c =>
          match a with
          | none => none
          | some mm => recursiveDeleteIdMap h fuel c mm) (some m) with
        | none => none
        | some m2 => some (mapDel m2 e.id)


/-- `InsertBeforeCommand.Execute`: duplicate-id, missing-target and
before-root failures leave the editor untouched; on success the new element
(with its `id` attribute set to the *escaped* new id) is spliced before the
target in its parent's children and indexed. -/
def InsertBeforeCommand.Execute (c : InsertBeforeCommand) (x : XmlEditor) :
    Option (InsertBeforeCommand × XmlEditor) :=
  if (mapGet x.idMap c.newId).isSome then some (c, x)
  else
    match mapGet x.idMap c.targetId with
    | none => some (c, x)
    | some targetRef =>
      match x.heap.get? targetRef with
      | none => none
      | some targetElem =>
        match targetElem.parent with
        | none => some (c, x)
        | some parentRef =>
          match x.heap.get? parentRef with
          | none => none
          | some parentElem =>
            match findChildIdx x.heap c.targetId parentElem.children with
            | none => none
            | some none => some (c, x)
            | some (some index) =>
              let newRef := x.heap.length
              let newElem : XMLElement :=
                { tag := c.tag, id := c.newId, text := c.text,
                  attrs := mapSet [] "id" (escapeXML c.newId),
                  parent := some parentRef, children := [] }
              let heap1 := x.heap ++ [newElem]
              let children1 := parentElem.children.take index ++ [newRef]
                ++ parentElem.children.drop index
              let heap2 := heap1.set parentRef { parentElem with children := children1 }
              some ({ c with insertedElem := some newRef, success := true },
                    { x with heap := heap2,
                             idMap := mapSet x.idMap c.newId newRef,
                             isModified := true })

/-- `InsertBeforeCommand.Undo`: removes the child found *by id* `newId` from
the inserted element's parent (skipping removal when absent) and drops the
index entry. -/
def InsertBeforeCommand.Undo (c : InsertBeforeCommand) (x : XmlEditor) :
    Option (InsertBeforeCommand × XmlEditor) :=
  if ¬ c.success then some (c, x)
  else
    match c.insertedElem with
    | none => some (c, x)
    | some er =>
      match x.heap.get? er with
      | none => none
      | some e =>
        match e.parent with
        | none => some (c, x)
        | some parentRef =>
          match x.heap.get? parentRef with
          | none => none
          | some parentElem =>
            match findChildIdx x.heap c.newId parentElem.children with
            | none => none
            | some idxOpt =>
              let children1 :=
                match idxOpt with
                | some i => parentElem.children.take i ++ parentElem.children.drop (i + 1)
                | none => parentElem.children
              let heap1 := x.heap.set parentRef { parentElem with children := children1 }
              some ({ c with success := false },
                    { x with heap := heap1,
                             idMap := mapDel x.idMap c.newId,
                             isModified := true })

def InsertBeforeCommand.IsExecuted (c : InsertBeforeCommand) : Bool := c.success

/-- `AppendChildCommand.Execute`: resolves the parent through the index, or by
a full tree scan as fallback; fails (untouched editor) if neither resolves or
if `newId` is already indexed; otherwise appends the new element (its `id`
attribute set to the raw new id) as last child and indexes it. -/
def AppendChildCommand.Execute (c : AppendChildCommand) (x : XmlEditor) :
    Option (AppendChildCommand × XmlEditor) :=
  let parentResolved : Option (Option Nat) :=
    match mapGet x.idMap c.parentId with
    | some pr => some (some pr)
    | none => findNodeById x.heap (x.heap.length + 1) x.root c.parentId
  match parentResolved with
  | none => none
  | some none => some ({ c with success := false }, x)
  | some (some parentRef) =>
    if (mapGet x.idMap c.newId).isSome then some (c, x)
    else
      match x.heap.get? parentRef with
      | none => none
      | some parentElem =>
        let newRef := x.heap.length
        let newElem : XMLElement :=
          { tag := c.tag, id := c.newId, text := c.text,
            attrs := mapSet [] "id" c.newId,
            parent := some parentRef, children := [] }
        let heap1 := x.heap ++ [newElem]
        let heap2 := heap1.set parentRef
          { parentElem with children := parentElem.children ++ [newRef] }
        some ({ c with insertedElem := some newRef, success := true },
              { x with heap := heap2,
                       idMap := mapSet x.idMap c.newId newRef,
                       isModified := true })

/-- `AppendChildCommand.Undo`: same shape as the insert-before undo. -/
def AppendChildCommand.Undo (c : AppendChildCommand) (x : XmlEditor) :
    Option (AppendChildCommand × XmlEditor) :=
  if ¬ c.success then some (c, x)
  else
    match c.insertedElem with
    | none => some (c, x)
    | some er =>
      match x.heap.get? er with
      | none => none
      | some e =>
        match e.parent with
        | none => some (c, x)
        | some parentRef =>
          match x.heap.get? parentRef with
          | none => none
          | some parentElem =>
            match findChildIdx x.heap c.newId parentElem.children with
            | none => none
            | some idxOpt =>
              let children1 :=
                match idxOpt with
                | some i => parentElem.children.take i ++ parentElem.children.drop (i + 1)
                | none => parentElem.children
              let heap1 := x.heap.set parentRef { parentElem with children := children1 }
              some ({ c with success := false },
                    { x with heap := heap1,
                             idMap := mapDel x.idMap c.newId,
                             isModified := true })

def AppendChildCommand.IsExecuted (c : AppendChildCommand) : Bool := c.success

/-- `EditIdCommand.Execute`: fails untouched on a missing old id, on the root
element, or on a duplicate new id; otherwise re-keys the index and rewrites
the element's canonical id (its `"id"` attribute entry is *not* touched). -/
def EditIdCommand.Execute (c : EditIdCommand) (x : XmlEditor) :
    Option (EditIdCommand × XmlEditor) :=
  match mapGet x.idMap c.oldId with
  | none => some (c, x)
  | some er =>
    if er = x.root then some ({ c with success := false }, x)
    else if (mapGet x.idMap c.newId).isSome then some (c, x)
    else
      match x.heap.get? er with
      | none => none
      | some elem =>
        some ({ c with prevId := elem.id, success := true },
              { x with heap := x.heap.set er { elem with id := c.newId },
                       idMap := mapSet (mapDel x.idMap c.oldId) c.newId er,
                       isModified := true })

/-- `EditIdCommand.Undo`: no-op when never executed or when the saved previous
id is empty; otherwise re-keys back. -/
def EditIdCommand.Undo (c : EditIdCommand) (x : XmlEditor) :
    Option (EditIdCommand × XmlEditor) :=
  if ¬ c.success ∨ c.prevId = "" then some (c, x)
  else
    match mapGet x.idMap c.newId with
    | none => some (c, x)
    | some er =>
      match x.heap.get? er with
      | none => none
      | some elem =>
        some ({ c with success := false },
              { x with heap := x.heap.set er { elem with id := c.prevId },
                       idMap := mapSet (mapDel x.idMap c.newId) c.prevId er,
                       isModified := true })

def EditIdCommand.IsExecuted (c : EditIdCommand) : Bool := c.success

/-- `EditTextCommand.Execute`: fails untouched on a missing element; otherwise
replaces the text payload, saving the previous value. -/
def EditTextCommand.Execute (c : EditTextCommand) (x : XmlEditor) :
    Option (EditTextCommand × XmlEditor) :=
  match mapGet x.idMap c.elementId with
  | none => some (c, x)
  | some er =>
    match x.heap.get? er with
    | none => none
    | some elem =>
      some ({ c with prevText := elem.text, success := true },
            { x with heap := x.heap.set er { elem with text := c.text },
                     isModified := true })

/-- `EditTextCommand.Undo`: no-op when never executed or when the saved
previous text is empty (the source's empty-string sentinel); otherwise
restores the saved text. -/
def EditTextCommand.Undo (c : EditTextCommand) (x : XmlEditor) :
    Option (EditTextCommand × XmlEditor) :=
  if ¬ c.success ∨ c.prevText = "" then some (c, x)
  else
    match mapGet x.idMap c.elementId with
    | none => some (c, x)
    | some er =>
      match x.heap.get? er with
      | none => none
      | some elem =>
        some ({ c with success := false },
              { x with heap := x.heap.set er { elem with text := c.prevText },
                       isModified := true })

def EditTextCommand.IsExecuted (c : EditTextCommand) : Bool := c.success

/-- `XmlDeleteCommand.Execute`: fails untouched on a missing element or on the
root; otherwise snapshots the subtree map (with its empty-id pruning), removes
the element from its parent's children (located by reference), and prunes the
index. -/
def XmlDeleteCommand.Execute (c : XmlDeleteCommand) (x : XmlEditor) :
    Option (XmlDeleteCommand × XmlEditor) :=
  match mapGet x.idMap c.elementId with
  | none => some (c, x)
  | some er =>
    if er = x.root then some (c, x)
    else
      match x.heap.get? er with
      | none => none
      | some elem =>
        match recursiveSaveNodes x.heap (x.heap.length + 1) er [] with
        | none => none
        | some saved =>
          let c1 := { c with deletedIdMap := some saved,
                             deletedElem := some er,
                             parentElem := elem.parent }
          match elem.parent with
          | none => none
          | some parentRef =>
            match x.heap.get? parentRef with
            | none => none
            | some parentElem =>
              match parentElem.children.findIdx? (fun cr => cr == er) with
              | none => some ({ c1 with index := -1, success := false }, x)
              | some i =>
                let children1 := parentElem.children.take i
                  ++ parentElem.children.drop (i + 1)
                let heap1 := x.heap.set parentRef
                  { parentElem with children := children1 }
                match recursiveDeleteIdMap heap1 (heap1.length + 1) er x.idMap with
                | none => none
                | some idMap1 =>
                  some ({ c1 with index := (i : Int), success := true },
                        { x with heap := heap1, idMap := idMap1,
                                 isModified := true })

/-- `XmlDeleteCommand.Undo`: no-op when any captured field is missing; splices
the saved element back at its saved index (`none` models the Go slice panic
when the saved index exceeds the current child count) and re-adds every saved
id mapping. -/
def XmlDeleteCommand.Undo (c : XmlDeleteCommand) (x : XmlEditor) :
    Option (XmlDeleteCommand × XmlEditor) :=
  match c.deletedElem, c.parentElem, c.deletedIdMap with
  | some er, some parentRef, some saved =>
    if ¬ c.success ∨ c.index = -1 then some (c, x)
    else
      match x.heap.get? parentRef with
      | none => none
      | some parentElem =>
        if c.index < 0 ∨ (parentElem.children.length : Int) < c.index then none
        else
          let i := c.index.toNat
          let children1 := parentElem.children.take i ++ [er]
            ++ parentElem.children.drop i
          let heap1 := x.heap.set parentRef { parentElem with children := children1 }
          let idMap1 := saved.foldl (fun m p => mapSet m p.1 p.2) x.idMap
          some ({ c with success := false },
                { x with heap := heap1, idMap := idMap1, isModified := true })
  | _, _, _ => some (c, x)

def XmlDeleteCommand.IsExecuted (c : XmlDeleteCommand) : Bool := c.success

/-- `Command.Execute` dispatch over the closed set of variants. -/
def Cmd.Execute (cmd : Cmd) (x : XmlEditor) : Option (Cmd × XmlEditor) :=
  match cmd with
  | .ib c => (c.Execute x).map (fun p => (.ib p.1, p.2))
  | .ac c => (c.Execute x).map (fun p => (.ac p.1, p.2))
  | .eid c => (c.Execute x).map (fun p => (.eid p.1, p.2))
  | .etx c => (c.Execute x).map (fun p => (.etx p.1, p.2))
  | .del c => (c.Execute x).map (fun p => (.del p.1, p.2))

/-- `Command.Undo` dispatch. -/
def Cmd.Undo (cmd : Cmd) (x : XmlEditor) : Option (Cmd × XmlEditor) :=
  match cmd with
  | .ib c => (c.Undo x).map (fun p => (.ib p.1, p.2))
  | .ac c => (c.Undo x).map (fun p => (.ac p.1, p.2))
  | .eid c => (c.Undo x).map (fun p => (.eid p.1, p.2))
  | .etx c => (c.Undo x).map (fun p => (.etx p.1, p.2))
  | .del c => (c.Undo x).map (fun p => (.del p.1, p.2))

/-- `Command.IsExecuted` dispatch. -/
def Cmd.IsExecuted (cmd : Cmd) : Bool :=
  match cmd with
  | .ib c => c.IsExecuted
  | .ac c => c.IsExecuted
  | .eid c => c.IsExecuted
  | .etx c => c.IsExecuted
  | .del c => c.IsExecuted

/-- `XmlEditor.ExecuteCommand` (xml_editor.go:48): execute, then push onto the
undo stack, clear the redo stack and set the dirty flag — all unconditionally. -/
def ExecuteCommand (x : XmlEditor) (command : Cmd) : Option XmlEditor :=
  match command.Execute x with
  | none => none
  | some (c1, x1) =>
    some { x1 with undoStack := x1.undoStack ++ [c1],
                   redoStack := [],
                   isModified := true }

/-- `XmlEditor.Undo` (xml_editor.go:408): pop the top command (no-op on an
empty stack), reverse it, move it to the redo stack. -/
def UndoTop (x : XmlEditor) : Option XmlEditor :=
  match x.undoStack.getLast? with
  | none => some x
  | some cmd =>
    match cmd.Undo x with
    | none => none
    | some (c1, x1) =>
      some { x1 with undoStack := x1.undoStack.dropLast,
                     redoStack := x1.redoStack ++ [c1] }

/-- `XmlEditor.IsModified`. -/
def IsModified (x : XmlEditor) : Bool := x.isModified


/-- `XmlEditor.EditText` entry point (editor_cmd.go): wrap and run through
`ExecuteCommand` (logging is an external collaborator, not modelled). -/
def EditText (x : XmlEditor) (elementId text : String) : Option XmlEditor :=
  ExecuteCommand x (.etx (NewEditTextCommand elementId text))

/-- `XmlEditor.InsertBefore` entry point (editor_cmd.go). -/
def InsertBefore (x : XmlEditor) (tag newId targetId text : String) : Option XmlEditor :=
  ExecuteCommand x (.ib (NewInsertBeforeCommand tag newId targetId text))

/-- `XmlEditor.AppendChild` entry point (editor_cmd.go). -/
def AppendChild (x : XmlEditor) (tag newId parentId text : String) : Option XmlEditor :=
  ExecuteCommand x (.ac (NewAppendChildCommand tag newId parentId text))

/-- `XmlEditor.EditId` entry point (editor_cmd.go). -/
def EditId (x : XmlEditor) (oldId newId : String) : Option XmlEditor :=
  ExecuteCommand x (.eid (NewEditIdCommand oldId newId))

/-- `XmlEditor.Delete` entry point (editor_cmd.go). -/
def Delete (x : XmlEditor) (elementId : String) : Option XmlEditor :=
  ExecuteCommand x (.del (NewXmlDeleteCommand elementId))

/-- A one-element document (root only), with a stale entry on the redo stack,
as after some earlier undone command. -/
def xSimple : XmlEditor :=
  { heap := [{ tag := "root", id := "root", attrs := [("id", "root")],
               text := "", parent := none, children := [] }],
    root := 0, idMap := [("root", 0)], isModified := false,
    undoStack := [], redoStack := [Cmd.etx (NewEditTextCommand "x" "y")] }

/-- Document `root → a → (empty-id node) → c`: the element `c` is reachable
from `a` only through an intermediate node whose identifier is empty. -/
def xBarrier : XmlEditor :=
  { heap :=
      [{ tag := "root", id := "root", attrs := [("id", "root")], text := "",
         parent := none, children := [1] },
       { tag := "sect", id := "a", attrs := [("id", "a")], text := "",
         parent := some 0, children := [2] },
       { tag := "wrap", id := "", attrs := [], text := "",
         parent := some 1, children := [3] },
       { tag := "item", id := "c", attrs := [("id", "c")], text := "",
         parent := some 2, children := [] }],
    root := 0, idMap := [("root", 0), ("a", 1), ("c", 3)], isModified := false,
    undoStack := [], redoStack := [] }

/-- Document `root → b` where `b`'s text payload is the empty string. -/
def xEmptyText : XmlEditor :=
  { heap :=
      [{ tag := "root", id := "root", attrs := [("id", "root")], text := "",
         parent := none, children := [1] },
       { tag := "book", id := "b", attrs := [("id", "b")], text := "",
         parent := some 0, children := [] }],
    root := 0, idMap := [("root", 0), ("b", 1)], isModified := false,
    undoStack := [], redoStack := [] }

/-- Non-empty identifiers of the subtree rooted at `r`, depth-first
(fuel-bounded heap walk; with fuel above the heap size it covers the whole
reachable tree). -/
def treeIds (h : List XMLElement) : Nat → Nat → List String
  | 0, _ => []
  | fuel + 1, r =>
    match h.get? r with
    | none => []
    | some e =>
      (if e.id = "" then [] else [e.id])
        ++ e.children.foldr (fun c acc => treeIds h fuel c ++ acc) []

/-- Element references of the subtree rooted at `r`, depth-first. -/
def treeRefs (h : List XMLElement) : Nat → Nat → List Nat
  | 0, _ => []
  | fuel + 1, r =>
    match h.get? r with
    | none => []
    | some e => r :: e.children.foldr (fun c acc => treeRefs h fuel c ++ acc) []

/-- The non-empty identifiers of the document tree. -/
def treeIdsOf (x : XmlEditor) : List String :=
  treeIds x.heap (x.heap.length + 1) x.root

/-- No identifier occurs twice. -/
def idsUnique : List String → Bool
  | [] => true
  | s :: rest => !(rest.contains s) && idsUnique rest

/-- The identifier index matches the tree: every reachable element with a
non-empty id is indexed to itself, and every index entry points back to a
reachable element carrying exactly that id. -/
def idMapMatchesTree (x : XmlEditor) : Bool :=
  ((treeRefs x.heap (x.heap.length + 1) x.root).all (fun r =>
    match x.heap.get? r with
    | none => false
    | some e => e.id == "" || mapGet x.idMap e.id == some r))
  && x.idMap.all (fun p =>
    (treeRefs x.heap (x.heap.length + 1) x.root).contains p.2
      && (match x.heap.get? p.2 with
          | none => false
          | some e => e.id == p.1))

/-- Document `root → a → b` with an accurate index: the start state of the C8
scenario. -/
def xC8 : XmlEditor :=
  { heap := [{ tag := "root", id := "root", attrs := [("id", "root")], text := "",
               parent := none, children := [1] },
             { tag := "item", id := "a", attrs := [("id", "a")], text := "",
               parent := some 0, children := [2] },
             { tag := "item", id := "b", attrs := [("id", "b")], text := "",
               parent := some 1, children := [] }],
    root := 0, idMap := [("root", 0), ("a", 1), ("b", 2)],
    isModified := false, undoStack := [], redoStack := [] }


end XmlEd

namespace XmlSer

/-- Pure value tree for the serializer/parser claims: tag, attributes, text
and children.  (The heap model's parent back-reference is navigation-only and
not compared by the round-trip law; strings are `List Char` here so that the
character-level serializer and tokenizer can be reasoned about directly.) -/
inductive XmlTree where
  | node (tag : Str) (attrs : List (Str × Str)) (text : Str) (children : List XmlTree)

def XmlTree.tag : XmlTree → Str
  | .node tg _ _ _ => tg

def XmlTree.attrs : XmlTree → List (Str × Str)
  | .node _ a _ _ => a

def XmlTree.text : XmlTree → Str
  | .node _ _ tx _ => tx

def XmlTree.children : XmlTree → List XmlTree
  | .node _ _ _ cs => cs

/-- `strings.Repeat("    ", indent)`: four spaces per indentation level. -/
def ind (n : Nat) : Str := List.replicate (4 * n) ' '

/-- The attribute loop of `serializeNode`: ` name="escaped-value"` pairs.
(Go iterates its attribute map in unspecified order; the model serializes in
association-list order, one fixed representative of those orders.) -/
def serializeAttrs : List (Str × Str) → Str
  | [] => []
  | (k, v) :: rest =>
    ' ' :: (k ++ '=' :: '"' :: (XmlEd.escapeXMLChars v ++ '"' :: serializeAttrs rest))

mutual
/-- `serializeNode` (xml_editor.go:258): indentation, start tag with escaped
attributes; an element with no text and no children self-closes; otherwise
the escaped text on its own deeper-indented line, then the children one level
deeper, then the close tag. -/
def serializeNode : XmlTree → Nat → Str
  | .node tag attrs text children, indent =>
    ind indent ++ '<' :: (tag ++ serializeAttrs attrs
      ++ (if text.isEmpty && children.isEmpty then '/' :: '>' :: ['\n']
          else '>' :: '\n' ::
            ((if text.isEmpty then []
              else ind (indent + 1) ++ XmlEd.escapeXMLChars text ++ ['\n'])
             ++ serializeChildren children (indent + 1)
             ++ ind indent ++ '<' :: '/' :: (tag ++ '>' :: ['\n']))))

/-- The child loop of `serializeNode`. -/
def serializeChildren : List XmlTree → Nat → Str
  | [], _ => []
  | c :: cs, indent => serializeNode c indent ++ serializeChildren cs indent
end

/-- `xml.Header`, written by `ToXML` before the root element. -/
def xmlHeader : Str :=
  '<' :: '?' :: 'x' :: 'm' :: 'l' :: ' ' :: 'v' :: 'e' :: 'r' :: 's' :: 'i' :: 'o' :: 'n' ::
  '=' :: '"' :: '1' :: '.' :: '0' :: '"' :: ' ' :: 'e' :: 'n' :: 'c' :: 'o' :: 'd' :: 'i' ::
  'n' :: 'g' :: '=' :: '"' :: 'U' :: 'T' :: 'F' :: '-' :: '8' :: '"' :: '?' :: '>' :: ['\n']

/-- `ToXML` (xml_editor.go:228): the XML declaration followed by the
serialized root. -/
def ToXML (t : XmlTree) : Str := xmlHeader ++ serializeNode t 0


/-- Token stream of the stdlib XML decoder, as consumed by `parseXMLContent`.
Modelled from the spec: `encoding/xml`'s tokenizer is not part of this
repository; the spec describes it as stream-tokenizing into start-tag /
char-data / end-tag events with attributes captured verbatim (a self-closing
tag yields a start event immediately followed by an end event, and the XML
declaration is a processing-instruction event the parse loop ignores). -/
inductive Token where
  | start (tag : Str) (attrs : List (Str × Str))
  | endTag (tag : Str)
  | chardata (s : Str)
  | procInst
deriving DecidableEq

mutual
/-- Entity decoding for char-data and attribute values: the five entities the
serializer's `escapeXML` produces; any other `&` sequence is malformed
(`none`), as the strict stdlib decoder rejects unknown entities. -/
def unescapeStr : Str → Option Str
  | [] => some []
  | c :: r => if c = '&' then unescAmp r else (unescapeStr r).map (c :: ·)

/-- The entity table reached after an `&`. -/
def unescAmp : Str → Option Str
  | 'a' :: 'm' :: 'p' :: ';' :: r2 => (unescapeStr r2).map ('&' :: ·)
  | 'l' :: 't' :: ';' :: r2 => (unescapeStr r2).map ('<' :: ·)
  | 'g' :: 't' :: ';' :: r2 => (unescapeStr r2).map ('>' :: ·)
  | 'q' :: 'u' :: 'o' :: 't' :: ';' :: r2 => (unescapeStr r2).map ('"' :: ·)
  | 'a' :: 'p' :: 'o' :: 's' :: ';' :: r2 => (unescapeStr r2).map ('\'' :: ·)
  | _ => none
end

mutual
/-- Modelled from the spec: the decoder's token loop.  Text up to the next
`<` becomes one char-data token (entities decoded); `<` enters tag reading. -/
def tokenize : Str → Option (List Token)
  | [] => some []
  | c :: r => if c = '<' then tokenizeTag r else readCharData [c] r
termination_by structural s => s

/-- Modelled from the spec: dispatch after `<`: processing instruction,
end tag, or start tag (names are alphanumeric runs). -/
def tokenizeTag : Str → Option (List Token)
  | [] => none
  | '?' :: r2 => (skipPIThen r2).map (Token.procInst :: ·)
  | '/' :: r2 => readEndName [] r2
  | c :: r2 => if c.isAlphanum then readStartName [c] r2 else none
termination_by structural s => s

/-- Modelled from the spec: skip a `<? ... ?>` processing instruction. -/
def skipPIThen : Str → Option (List Token)
  | [] => none
  | '?' :: '>' :: r => tokenize r
  | _ :: r => skipPIThen r
termination_by structural s => s

/-- Modelled from the spec: read the name of `</name>` and emit the end
event. -/
def readEndName (acc : Str) : Str → Option (List Token)
  | [] => none
  | c :: r =>
    if c.isAlphanum then readEndName (acc ++ [c]) r
    else if c = '>' then (tokenize r).map (Token.endTag acc :: ·)
    else none
termination_by structural s => s

/-- Modelled from the spec: read a start tag's name, then its attributes
(the first delimiter character is dispatched inline, exactly as `attrsLoop`
would dispatch it). -/
def readStartName (acc : Str) : Str → Option (List Token)
  | [] => none
  | c :: r =>
    if c.isAlphanum then readStartName (acc ++ [c]) r
    else if c = ' ' then attrsLoop acc [] r
    else if c = '>' then (tokenize r).map (Token.start acc [] :: ·)
    else if c = '/' then
      match r with
      | '>' :: r2 =>
        (tokenize r2).map (fun ts => Token.start acc [] :: Token.endTag acc :: ts)
      | _ => none
    else none
termination_by structural s => s

/-- Modelled from the spec: the attribute loop of a start tag: space-separated
` name="value"` pairs until `>` (start event) or `/>` (start event plus end
event, the decoder's self-closing expansion). -/
def attrsLoop (tag : Str) (acc : List (Str × Str)) : Str → Option (List Token)
  | [] => none
  | c :: r =>
    if c = ' ' then attrsLoop tag acc r
    else if c = '>' then (tokenize r).map (Token.start tag acc :: ·)
    else if c = '/' then
      match r with
      | '>' :: r2 =>
        (tokenize r2).map (fun ts => Token.start tag acc :: Token.endTag tag :: ts)
      | _ => none
    else if c.isAlphanum then readAttrName tag acc [c] r
    else none
termination_by structural s => s

/-- Modelled from the spec: read an attribute name up to `="`. -/
def readAttrName (tag : Str) (acc : List (Str × Str)) (k : Str) :
    Str → Option (List Token)
  | [] => none
  | c :: r =>
    if c.isAlphanum then readAttrName tag acc (k ++ [c]) r
    else if c = '=' then
      match r with
      | '"' :: r2 => readAttrValue tag acc k [] r2
      | _ => none
    else none
termination_by structural s => s

/-- Modelled from the spec: read a double-quoted attribute value (entities
decoded, otherwise verbatim). -/
def readAttrValue (tag : Str) (acc : List (Str × Str)) (k : Str) (v : Str) :
    Str → Option (List Token)
  | [] => none
  | c :: r =>
    if c = '"' then
      match unescapeStr v with
      | none => none
      | some v2 => attrsLoop tag (acc ++ [(k, v2)]) r
    else readAttrValue tag acc k (v ++ [c]) r
termination_by structural s => s

/-- Modelled from the spec: accumulate char data up to the next `<` (or end
of input) and emit it as one token, entities decoded. -/
def readCharData (acc : Str) : Str → Option (List Token)
  | [] =>
    (match unescapeStr acc with
     | none => none
     | some d => some [Token.chardata d])
  | c :: r =>
    if c = '<' then
      match unescapeStr acc with
      | none => none
      | some d => (tokenizeTag r).map (Token.chardata d :: ·)
    else readCharData (acc ++ [c]) r
termination_by structural s => s
end


/-- `strings.TrimSpace`'s whitespace test, for the characters that arise
here. -/
def isSpc (c : Char) : Bool := c == ' ' || c == '\n' || c == '\t' || c == '\r'

/-- `strings.TrimSpace`: strip leading and trailing whitespace. -/
def trimSpace (s : Str) : Str :=
  ((s.dropWhile isSpc).reverse.dropWhile isSpc).reverse

/-- Go map-insert semantics for the `map[string]string` attribute map of a
parsed element, keyed by `Str`. -/
def mapSetC (m : List (Str × Str)) (k v : Str) : List (Str × Str) :=
  m.filter (fun p => !(p.1 == k)) ++ [(k, v)]

/-- One partially built element of `parseXMLContent`'s loop: the Go code
allocates the element at its start tag and fills it through `currentParent`;
the pure model keeps the fields gathered so far as a stack frame. -/
structure Frame where
  tag : Str
  attrs : List (Str × Str)
  text : Str
  children : List XmlTree

/-- The start/char-data/end loop of `parseXMLContent` over the token stream:
start pushes a frame (attributes inserted with map semantics); trimmed
non-empty char data overwrites the current element's text (ignored at top
level); end pops a frame, appending the finished element to its parent (or
recording it as the root).  `none` models the strict decoder's errors:
mismatched or unmatched end tags, or input ending inside an element. -/
def buildTokens : List Token → List Frame → Option XmlTree → Option (Option XmlTree)
  | [], stack, root =>
    (match stack with
     | [] => some root
     | _ :: _ => none)
  | tok :: rest, stack, root =>
    match tok with
    | .procInst => buildTokens rest stack root
    | .start tag attrs =>
      buildTokens rest
        ({ tag := tag, attrs := attrs.foldl (fun m p => mapSetC m p.1 p.2) [],
           text := [], children := [] } :: stack) root
    | .chardata s =>
      (match stack with
       | [] => buildTokens rest stack root
       | f :: fs =>
         if (trimSpace s).isEmpty then buildTokens rest stack root
         else buildTokens rest ({ f with text := trimSpace s } :: fs) root)
    | .endTag tag =>
      (match stack with
       | [] => none
       | f :: fs =>
         if f.tag == tag then
           let node := XmlTree.node f.tag f.attrs f.text f.children
           match fs with
           | [] => buildTokens rest [] (some node)
           | g :: gs => buildTokens rest ({ g with children := g.children ++ [node] } :: gs) root
         else none)

mutual
/-- The closing scan of `removeXMLComments`: characters inside `<!-- ... `
are dropped up to and including the terminating `-->`; an unterminated
comment consumes the rest (the source's non-greedy regex leaves an
unterminated `<!--` in place — a case no input of this development contains,
as proved where this function is used). -/
def skipComment : Str → Str
  | [] => []
  | '-' :: '-' :: '>' :: r2 => removeCommentsGo r2
  | _ :: r => skipComment r

/-- `removeXMLComments` (xml_editor.go:183): delete `<!-- ... -->` blocks. -/
def removeCommentsGo : Str → Str
  | '<' :: '!' :: '-' :: '-' :: r => skipComment r
  | c :: r => c :: removeCommentsGo r
  | [] => []
end


/-- `parseXMLContent` (xml_editor.go:94): strip comments, reject empty
content, tokenize (modelled stdlib decoder), and run the element-building
loop; `none` for any decode error or a missing root. -/
def parseXMLContent (content : Str) : Option XmlTree :=
  let content := removeCommentsGo content
  if content.isEmpty then none
  else
    match tokenize content with
    | none => none
    | some toks =>
      match buildTokens toks [] none with
      | none => none
      | some none => none
      | some (some root) => some root

/-- Names (tags, attribute keys) the modelled tokenizer reads back exactly:
non-empty alphanumeric runs. -/
def goodNameB (s : Str) : Bool := !s.isEmpty && s.all Char.isAlphanum

/-- Attribute-key uniqueness (Go's `map` cannot hold duplicate keys). -/
def nodupKeysB : List (Str × Str) → Bool
  | [] => true
  | (k, _) :: r => !(r.any (fun q => q.1 == k)) && nodupKeysB r

mutual
/-- The trees whose serialized form parses back exactly: alphanumeric tags
and attribute keys, attribute keys unique, and every text payload equal to
its whitespace-trimmed form (the parser trims char data, so surrounding
whitespace in a payload cannot survive a round trip — see the C9
counterexample). -/
def wfB : XmlTree → Bool
  | .node tag attrs text children =>
    goodNameB tag && attrs.all (fun p => goodNameB p.1) && nodupKeysB attrs
      && (trimSpace text == text) && wfListB children

/-- `wfB` on each tree of a forest. -/
def wfListB : List XmlTree → Bool
  | [] => true
  | c :: cs => wfB c && wfListB cs
end


/-- Prepend raw characters to a token stream: they fuse with a leading
char-data token (the decoder produces one token per maximal text run), and
otherwise form their own char-data token when non-empty. -/
def mergeCD (ws : Str) (ts : List Token) : List Token :=
  match ts with
  | Token.chardata d :: rest => Token.chardata (ws ++ d) :: rest
  | _ => if ws.isEmpty then ts else Token.chardata ws :: ts

mutual
/-- The token stream the serialized form of a tree produces, in continuation
style: `nodeToks t i cont` are the tokens of `serializeNode t i` followed by
a continuation whose tokens are `cont`.  Char-data contents are already
entity-decoded. -/
def nodeToks : XmlTree → Nat → List Token → List Token
  | .node tag attrs text children, i, cont =>
    mergeCD (ind i)
      (if text.isEmpty && children.isEmpty then
        Token.start tag attrs :: Token.endTag tag :: mergeCD ['\n'] cont
      else
        Token.start tag attrs ::
          mergeCD ('\n' :: (if text.isEmpty then [] else ind (i + 1) ++ text ++ ['\n']))
            (childrenToks children (i + 1)
              (mergeCD (ind i) (Token.endTag tag :: mergeCD ['\n'] cont))))

/-- `nodeToks` over a forest of siblings. -/
def childrenToks : List XmlTree → Nat → List Token → List Token
  | [], _, cont => cont
  | c :: cs, i, cont => nodeToks c i (childrenToks cs i cont)
end

/-- Entity-level decoding relation: `Unesc a u` holds when the raw character
run `a` decodes to `u` one plain character or one complete entity at a time.
It is the graph of `unescapeStr` on inputs free of dangling `&` sequences,
in a form that composes over concatenation. -/
inductive Unesc : Str → Str → Prop where
  | nil : Unesc [] []
  | plain {a u : Str} {c : Char} : c ≠ '&' → Unesc a u → Unesc (c :: a) (c :: u)
  | amp {a u : Str} : Unesc a u →
      Unesc ('&' :: 'a' :: 'm' :: 'p' :: ';' :: a) ('&' :: u)
  | lt {a u : Str} : Unesc a u →
      Unesc ('&' :: 'l' :: 't' :: ';' :: a) ('<' :: u)
  | gt {a u : Str} : Unesc a u →
      Unesc ('&' :: 'g' :: 't' :: ';' :: a) ('>' :: u)
  | quot {a u : Str} : Unesc a u →
      Unesc ('&' :: 'q' :: 'u' :: 'o' :: 't' :: ';' :: a) ('"' :: u)
  | apos {a u : Str} : Unesc a u →
      Unesc ('&' :: 'a' :: 'p' :: 'o' :: 's' :: ';' :: a) ('\'' :: u)

/-- The builder's endTag action on the enclosing stack: a finished element is
appended to the children of the frame below it (no effect on an empty stack,
where the root slot takes the element instead). -/
def pushChild (t : XmlTree) : List Frame → List Frame
  | [] => []
  | f :: fs => { f with children := f.children ++ [t] } :: fs

/-- The root slot after an element is finished: at the bottom of the stack the
element becomes the document root; otherwise the root is unchanged. -/
def pushRoot (t : XmlTree) (stack : List Frame) (root : Option XmlTree) : Option XmlTree :=
  match stack with
  | [] => some t
  | _ :: _ => root

/-- The root element used as the round-trip counterexample: its text payload
carries a leading space, which the parser's `TrimSpace` cannot restore. -/
def exC9 : XmlTree := XmlTree.node ['a'] [] [' ', 'x'] []

/-- A well-formed document exercising attributes (escaped value), text and
nesting, used as the round-trip witness input. -/
def exC9wf : XmlTree :=
  XmlTree.node ['r'] [(['i', 'd'], ['r', '1'])] []
    [XmlTree.node ['b'] [(['k'], ['a', '&', 'b'])] ['h', 'i'] [],
     XmlTree.node ['c'] [] [] []]

end XmlSer


namespace TextEd

theorem splitNL_ne_nil (s : Str) : splitNL s ≠ [] := by
  cases s with
  | nil => simp [splitNL]
  | cons c cs =>
    simp only [splitNL]
    cases splitNL cs with
    | nil => simp
    | cons a t =>
      by_cases hc : c = '\n' <;> simp [hc]

theorem set_self (l : List Str) (n : Nat) (h : n < l.length) : l.set n l[n] = l := by
  induction l generalizing n with
  | nil => simp at h
  | cons a t ih =>
    cases n with
    | zero => simp
    | succ m =>
      simp only [List.set_cons_succ, List.getElem_cons_succ]
      rw [ih]

theorem take_get_drop (l : List Str) (n : Nat) (h : n < l.length) :
    l.take n ++ l[n] :: l.drop (n + 1) = l := by
  rw [List.getElem_cons_drop l n h, List.take_append_drop]

theorem splice_undo (L : List Str) (idx m : Nat) (f lst : Str) (mid : List Str)
    (prev : Str) (hlt : idx < L.length) (hprev : L[idx] = prev)
    (hm : m = idx + (mid.length + 2)) :
    (L.take idx ++ [f] ++ mid ++ [lst] ++ L.drop (idx + 1)).take idx ++ [prev]
      ++ (L.take idx ++ [f] ++ mid ++ [lst] ++ L.drop (idx + 1)).drop m = L := by
  have htl : (L.take idx).length = idx := by rw [List.length_take]; omega
  have hassoc : L.take idx ++ [f] ++ mid ++ [lst] ++ L.drop (idx + 1)
      = L.take idx ++ ([f] ++ mid ++ [lst] ++ L.drop (idx + 1)) := by
    simp [List.append_assoc]
  have h1 : (L.take idx ++ [f] ++ mid ++ [lst] ++ L.drop (idx + 1)).take idx
      = L.take idx := by
    rw [hassoc]; exact List.take_left' htl
  have h2 : (L.take idx ++ [f] ++ mid ++ [lst] ++ L.drop (idx + 1)).drop m
      = L.drop (idx + 1) := by
    refine List.drop_left' ?_
    simp only [List.length_append, htl, List.length_cons, List.length_nil]
    omega
  rw [h1, h2, List.append_assoc, List.singleton_append, ← hprev,
    List.getElem_cons_drop L idx hlt, List.take_append_drop]

/-- C7: for every `(line, col, text)` accepted by Insert's validation, a
successful `Execute` followed by `Undo` reproduces the exact pre-insert line
sequence. -/
theorem C7_insert_undo_roundtrip
    (line col : Int) (text : Str) (ed : TextEditor)
    (cmd' : InsertCommand) (ed' : TextEditor)
    (hv : (NewInsertCommand line col text).validate ed = true)
    (h : (NewInsertCommand line col text).Execute ed = some (cmd', ed')) :
    (cmd'.Undo ed').lines = ed.lines := by
  unfold InsertCommand.Execute at h
  rw [if_neg (by simp [hv])] at h
  simp only [NewInsertCommand] at h
  cases hget : ed.lines.get? (line - 1).toNat with
  | none => rw [hget] at h; simp at h
  | some prev =>
    rw [hget] at h
    rw [List.get?_eq_getElem?, List.getElem?_eq_some] at hget
    obtain ⟨hlt, hprev⟩ := hget
    by_cases hn : (splitNL text).length = 1
    · simp only [hn, if_true, Option.some.injEq, Prod.mk.injEq] at h
      obtain ⟨hc, he⟩ := h
      subst hc; subst he
      unfold InsertCommand.Undo
      simp only [not_true, ite_false, hn, if_true, ite_not, Bool.false_eq_true]
      rw [List.set_set, ← hprev]
      rw [set_self ed.lines (line - 1).toNat hlt]
    · simp only [hn, if_false, Option.some.injEq, Prod.mk.injEq] at h
      obtain ⟨hc, he⟩ := h
      subst hc; subst he
      have hpos : 0 < (splitNL text).length :=
        List.length_pos.mpr (splitNL_ne_nil text)
      have hn2 : 2 ≤ (splitNL text).length := by omega
      unfold InsertCommand.Undo
      simp only [not_true, ite_false, hn, if_false, ite_not, Bool.false_eq_true]
      refine splice_undo ed.lines ((line - 1).toNat) _ _ _ _ prev hlt hprev ?_
      simp only [List.length_drop, List.length_take]
      omega


theorem delete_exec_invalid (cmd : DeleteCommand) (ed : TextEditor)
    (hv : cmd.validate ed = false) :
    cmd.Execute ed = some (cmd, ed) := by
  unfold DeleteCommand.Execute
  rw [if_pos (by simp [hv])]

theorem delete_exec_valid (cmd : DeleteCommand) (ed : TextEditor) (prev : Str)
    (hv : cmd.validate ed = true)
    (hget : ed.lines.get? (cmd.line - 1).toNat = some prev) :
    cmd.Execute ed = some
      ({ cmd with prevLine := prev, executed := true },
       { lines := ed.lines.set (cmd.line - 1).toNat
           (prev.take (cmd.col - 1).toNat
             ++ prev.drop ((cmd.col - 1).toNat + cmd.length.toNat)),
         isModified := true }) := by
  unfold DeleteCommand.Execute
  rw [if_neg (by simp [hv])]
  simp only [hget]

theorem delete_validate_facts (cmd : DeleteCommand) (ed : TextEditor)
    (hv : cmd.validate ed = true) :
    ∃ prev, ed.lines.get? (cmd.line - 1).toNat = some prev ∧
      1 ≤ cmd.line ∧ cmd.line ≤ (ed.lines.length : Int) ∧
      1 ≤ cmd.col ∧ 0 < cmd.length ∧
      cmd.col - 1 < (prev.length : Int) ∧
      cmd.col - 1 + cmd.length ≤ (prev.length : Int) := by
  unfold DeleteCommand.validate at hv
  simp only [] at hv
  split at hv
  · exact absurd hv (by simp)
  · rename_i hc1
    split at hv
    · exact absurd hv (by simp)
    · rename_i prev hget
      split at hv
      · exact absurd hv (by simp)
      · split at hv
        · exact absurd hv (by simp)
        · rename_i hc2 hc3
          simp only [Bool.or_eq_true, decide_eq_true_eq, not_or] at hc1 hc2 hc3
          refine ⟨prev, hget, ?_, ?_, ?_, ?_, ?_, ?_⟩ <;> omega


theorem insert_exec_executed (cmd : InsertCommand) (ed : TextEditor) (prev : Str)
    (hv : cmd.validate ed = true)
    (hget : ed.lines.get? (cmd.line - 1).toNat = some prev) :
    ∃ cmd2 ed2, cmd.Execute ed = some (cmd2, ed2) ∧ cmd2.executed = true := by
  unfold InsertCommand.Execute
  rw [if_neg (by simp [hv])]
  simp only [hget]
  by_cases hn : (splitNL cmd.text).length = 1
  · rw [if_pos (by simpa using hn)]
    exact ⟨_, _, rfl, rfl⟩
  · rw [if_neg (by simpa using hn)]
    exact ⟨_, _, rfl, rfl⟩

theorem insert_validate_after_delete
    (line col len : Int) (text : Str) (ed : TextEditor) (prev : Str)
    (h1 : 1 ≤ line) (h2 : line ≤ (ed.lines.length : Int))
    (h3 : 1 ≤ col) (h4 : 0 < len)
    (h5 : col - 1 < (prev.length : Int))
    (h6 : col - 1 + len ≤ (prev.length : Int)) :
    (NewInsertCommand line col text).validate
      { lines := ed.lines.set (line - 1).toNat
          (prev.take (col - 1).toNat ++ prev.drop ((col - 1).toNat + len.toNat)),
        isModified := true } = true := by
  have hlt : (line - 1).toNat < ed.lines.length := by omega
  unfold InsertCommand.validate
  simp only [NewInsertCommand, List.length_set]
  rw [if_neg (by simp only [Int.natCast_eq_zero]; omega)]
  rw [if_neg (by simp only [Bool.or_eq_true, decide_eq_true_eq, not_or]; constructor <;> omega)]
  rw [List.get?_set_eq_of_lt _ hlt]
  simp only [List.length_append, List.length_take, List.length_drop]
  simp only [Bool.and_eq_true, decide_eq_true_eq]
  constructor
  · omega
  · push_cast
    omega


/-- C2: whenever a `ReplaceCommand` finishes with `IsExecuted()` false, the
buffer's line sequence after `Execute` is identical to the one before. -/
theorem C2_replace_failed_buffer_unchanged
    (line col len : Int) (text : Str) (ed : TextEditor)
    (cmd' : ReplaceCommand) (ed' : TextEditor)
    (h : (NewReplaceCommand line col len text).Execute ed = some (cmd', ed'))
    (hne : cmd'.executed = false) :
    ed'.lines = ed.lines := by
  unfold ReplaceCommand.Execute at h
  simp only [NewReplaceCommand] at h
  by_cases hdv : (NewDeleteCommand line col len).validate ed = true
  · obtain ⟨prev, hget, f1, f2, f3, f4, f5, f6⟩ := delete_validate_facts _ _ hdv
    simp only [NewDeleteCommand] at hget f1 f2 f3 f4 f5 f6
    rw [delete_exec_valid _ _ prev hdv (by simpa [NewDeleteCommand] using hget)] at h
    simp only [NewDeleteCommand, Option.bind_eq_bind, Option.some_bind] at h
    rw [if_neg (by simp)] at h
    have hlt : (line - 1).toNat < ed.lines.length := by omega
    have hiv := insert_validate_after_delete line col len text ed prev f1 f2 f3 f4 f5 f6
    have hget2 : (ed.lines.set (line - 1).toNat
        (prev.take (col - 1).toNat ++ prev.drop ((col - 1).toNat + len.toNat))).get?
          (line - 1).toNat
        = some (prev.take (col - 1).toNat ++ prev.drop ((col - 1).toNat + len.toNat)) :=
      List.get?_set_eq_of_lt _ hlt
    obtain ⟨cmd2, ed2, hex, hexec⟩ :=
      insert_exec_executed (NewInsertCommand line col text) _ _ hiv hget2
    rw [hex] at h
    simp only [Option.bind_eq_bind, Option.some_bind, Option.pure_def, Option.some.injEq, Prod.mk.injEq] at h
    obtain ⟨hc, he⟩ := h
    subst hc; subst he
    simp only [hexec] at hne
    exact absurd hne (by simp)
  · rw [delete_exec_invalid _ _ (by simpa using hdv)] at h
    simp only [Option.bind_eq_bind, Option.some_bind] at h
    rw [if_pos (by simp [NewDeleteCommand])] at h
    simp only [Option.pure_def, Option.some.injEq, Prod.mk.injEq] at h
    obtain ⟨hc, he⟩ := h
    subst he
    rfl


/-- C2 witness: an out-of-range replace on buffer `["A"]` is reported not
executed and leaves the line sequence unchanged. -/
theorem C2_replace_failed_buffer_unchanged_witness :
    (NewReplaceCommand 2 1 1 []).Execute ⟨[['A']], false⟩
      = some (NewReplaceCommand 2 1 1 [], ⟨[['A']], false⟩) ∧
    (NewReplaceCommand 2 1 1 []).executed = false ∧
    (⟨[['A']], false⟩ : TextEditor).lines = (⟨[['A']], false⟩ : TextEditor).lines :=
  ⟨by decide, by decide,
   C2_replace_failed_buffer_unchanged 2 1 1 [] ⟨[['A']], false⟩
     (NewReplaceCommand 2 1 1 []) ⟨[['A']], false⟩ (by decide) (by decide)⟩

/-- C3: on a zero-line buffer, Insert's validation accepts exactly
`line=1, col=1`, but `Execute` at `(1,1)` then indexes `lines[0]` on the empty
line slice — a Go index-out-of-range panic (modelled as `none`) — instead of
performing the insertion and reporting success. -/
theorem C3_empty_buffer_insert_validate_accepts_but_execute_panics :
    (NewInsertCommand 1 1 ['h','i']).validate ⟨[], false⟩ = true ∧
    (NewInsertCommand 1 1 ['h','i']).Execute ⟨[], false⟩ = none :=
  ⟨by decide, by decide⟩

/-- C7: executing a validated Insert and immediately undoing it reproduces the
exact pre-insert line sequence; concretely, on buffer `["X"]`,
`Insert(1,1,"AB\nCD")` yields `["AB","CDX"]` and its Undo yields `["X"]`. -/
theorem C7_insert_undo_roundtrip_witness :
    (NewInsertCommand 1 1 ['A','B','\n','C','D']).validate ⟨[['X']], false⟩ = true ∧
    (NewInsertCommand 1 1 ['A','B','\n','C','D']).Execute ⟨[['X']], false⟩
      = some ({ line := 1, col := 1, text := ['A','B','\n','C','D'],
                prevLine := ['X'], splitLines := [['A','B'],['C','D']],
                executed := true },
              ⟨[['A','B'],['C','D','X']], true⟩) ∧
    (InsertCommand.Undo
      { line := 1, col := 1, text := ['A','B','\n','C','D'], prevLine := ['X'],
        splitLines := [['A','B'],['C','D']], executed := true }
      ⟨[['A','B'],['C','D','X']], true⟩).lines = [['X']] :=
  ⟨by decide, by decide,
   C7_insert_undo_roundtrip 1 1 ['A','B','\n','C','D'] ⟨[['X']], false⟩
     { line := 1, col := 1, text := ['A','B','\n','C','D'], prevLine := ['X'],
       splitLines := [['A','B'],['C','D']], executed := true }
     ⟨[['A','B'],['C','D','X']], true⟩
     (by decide) (by decide)⟩

end TextEd
namespace XmlEd

/-- C1: the document-side `ExecuteCommand` does **not** enforce the
only-on-success contract: an `EditText` whose validation fails (missing
element, `IsExecuted()` false) is still pushed onto the undo stack, and the
non-empty redo stack is still cleared. -/
theorem C1_failed_command_still_pushed :
    EditText xSimple "missing" "zzz"
      = some { xSimple with
                 undoStack := [Cmd.etx (NewEditTextCommand "missing" "zzz")],
                 redoStack := [], isModified := true } ∧
    (Cmd.etx (NewEditTextCommand "missing" "zzz")).IsExecuted = false ∧
    xSimple.redoStack ≠ [] := by
  refine ⟨by decide, by decide, by decide⟩

/-- C10: every completed `XmlEditor.ExecuteCommand` call sets the dirty flag
and empties the redo stack; concretely, a failed `EditText` on a fresh
document leaves tree and index untouched yet `IsModified` reports true. -/
theorem C10_executeCommand_always_dirties_and_clears_redo :
    (∀ (x : XmlEditor) (c : Cmd) (x' : XmlEditor),
        ExecuteCommand x c = some x' →
        x'.isModified = true ∧ x'.redoStack = []) ∧
    ((EditText xSimple "missing" "zzz").map XmlEditor.heap = some xSimple.heap ∧
     (EditText xSimple "missing" "zzz").map XmlEditor.idMap = some xSimple.idMap ∧
     (EditText xSimple "missing" "zzz").map IsModified = some true ∧
     xSimple.isModified = false) := by
  constructor
  · intro x c x' h
    unfold ExecuteCommand at h
    cases hex : c.Execute x with
    | none => rw [hex] at h; exact absurd h (by simp)
    | some p =>
      rw [hex] at h
      simp only [Option.some.injEq] at h
      subst h
      exact ⟨rfl, rfl⟩
  · exact ⟨by decide, by decide, by decide, by decide⟩

/-- C10 witness: the universally quantified part of the C10 theorem applied
at a concrete successful call. -/
theorem C10_executeCommand_always_dirties_and_clears_redo_witness :
    (EditText xSimple "missing" "zzz").map XmlEditor.isModified = some true ∧
    (EditText xSimple "missing" "zzz").map XmlEditor.redoStack = some [] := by
  have h := C10_executeCommand_always_dirties_and_clears_redo.1 xSimple
    (Cmd.etx (NewEditTextCommand "missing" "zzz"))
    { xSimple with
        undoStack := [Cmd.etx (NewEditTextCommand "missing" "zzz")],
        redoStack := [], isModified := true }
    (by decide)
  refine ⟨?_, ?_⟩ <;> simp [EditText] at h ⊢ <;> decide

/-- C4: after the successful `Delete("a")` on `root → a → (no-id) → c`, the
identifier index still contains `"c"`, which belongs to a deleted descendant
of `a` reached only through the empty-id intermediate node (the recursive
map cleanup prunes at empty-id nodes); the subtree is gone from the tree
(the root has no children) while element 3 still carries id `"c"`. -/
theorem C4_delete_leaves_hidden_descendant_id_in_index :
    ((Delete xBarrier "a").map (fun x => x.undoStack.map Cmd.IsExecuted)
        = some [true]) ∧
    ((Delete xBarrier "a").map (fun x => mapGet x.idMap "a") = some none) ∧
    ((Delete xBarrier "a").map (fun x => mapGet x.idMap "c") = some (some 3)) ∧
    ((Delete xBarrier "a").map (fun x => (x.heap.get? 0).map XMLElement.children)
        = some (some [])) ∧
    ((Delete xBarrier "a").map (fun x => (x.heap.get? 3).map XMLElement.id)
        = some (some "c")) := by
  refine ⟨by decide, by decide, by decide, by decide, by decide⟩

/-- C5: a successful `EditId("b2","b3")` (after `AppendChild` created `b2`)
rewrites the canonical identifier but not the `"id"` attribute entry: the
element ends with id `"b3"` and attribute `id="b2"`, breaking the mirror
invariant. -/
theorem C5_editId_does_not_update_id_attribute :
    (((AppendChild xSimple "book" "b2" "root" "Title").bind
        (fun x1 => EditId x1 "b2" "b3")).map
      (fun x => ((x.heap.get? 1).map (fun e => (e.id, mapGet e.attrs "id")),
                 x.undoStack.map Cmd.IsExecuted)))
      = some (some ("b3", some "b2"), [true, true]) := by
  decide

/-- C6: on an element whose current text is empty, a successful
`EditText("b","hello")` followed by `Undo()` leaves the text `"hello"`: the
undo's empty-string sentinel (`prevText == ""`) turns the reversal into a
no-op instead of restoring the empty payload. -/
theorem C6_editText_undo_noop_on_empty_previous_text :
    ((EditText xEmptyText "b" "hello").map
        (fun x => x.undoStack.map Cmd.IsExecuted) = some [true]) ∧
    (((EditText xEmptyText "b" "hello").bind UndoTop).map
        (fun x => (x.heap.get? 1).map XMLElement.text) = some (some "hello")) := by
  refine ⟨by decide, by decide⟩

end XmlEd
namespace XmlSer

theorem Unesc.append {a u b v : Str} (h1 : Unesc a u) (h2 : Unesc b v) :
    Unesc (a ++ b) (u ++ v) := by
  induction h1 with
  | nil => simpa
  | plain hc _ ih => exact .plain hc ih
  | amp _ ih => exact .amp ih
  | lt _ ih => exact .lt ih
  | gt _ ih => exact .gt ih
  | quot _ ih => exact .quot ih
  | apos _ ih => exact .apos ih

theorem Unesc.of_no_amp {a : Str} (h : ∀ c ∈ a, c ≠ '&') : Unesc a a := by
  induction a with
  | nil => exact .nil
  | cons c r ih =>
    exact .plain (h c (List.mem_cons_self c r))
      (ih (fun x hx => h x (List.mem_cons_of_mem _ hx)))

theorem Unesc.escape (s : Str) {a u : Str} (h : Unesc a u) :
    Unesc (XmlEd.escapeXMLChars s ++ a) (s ++ u) := by
  induction s with
  | nil => simpa [XmlEd.escapeXMLChars]
  | cons c r ih =>
    by_cases h1 : c = '&'
    · subst h1; simpa [XmlEd.escapeXMLChars] using Unesc.amp ih
    · by_cases h2 : c = '<'
      · subst h2; simpa [XmlEd.escapeXMLChars] using Unesc.lt ih
      · by_cases h3 : c = '>'
        · subst h3; simpa [XmlEd.escapeXMLChars] using Unesc.gt ih
        · by_cases h4 : c = '"'
          · subst h4; simpa [XmlEd.escapeXMLChars] using Unesc.quot ih
          · by_cases h5 : c = '\''
            · subst h5; simpa [XmlEd.escapeXMLChars] using Unesc.apos ih
            · simpa [XmlEd.escapeXMLChars, h1, h2, h3, h4, h5] using
                Unesc.plain h1 ih

theorem unescapeStr_cons_ne {a : Str} {c : Char} (hc : c ≠ '&') :
    unescapeStr (c :: a) = (unescapeStr a).map (c :: ·) := by
  rw [unescapeStr, if_neg hc]

theorem Unesc.unescape_append {a u : Str} (h : Unesc a u) (b : Str) :
    unescapeStr (a ++ b) = (unescapeStr b).map (u ++ ·) := by
  induction h with
  | nil => cases hb : unescapeStr b <;> simp [hb]
  | plain hc _ ih =>
    rw [List.cons_append, unescapeStr_cons_ne hc, ih]
    cases unescapeStr b <;> simp
  | amp _ ih =>
    show unescapeStr ('&' :: 'a' :: 'm' :: 'p' :: ';' :: _) = _
    rw [unescapeStr, if_pos rfl]
    show (unescapeStr _).map ('&' :: ·) = _
    rw [List.append_eq, ih]
    cases unescapeStr b <;> simp
  | lt _ ih =>
    show unescapeStr ('&' :: 'l' :: 't' :: ';' :: _) = _
    rw [unescapeStr, if_pos rfl]
    show (unescapeStr _).map ('<' :: ·) = _
    rw [List.append_eq, ih]
    cases unescapeStr b <;> simp
  | gt _ ih =>
    show unescapeStr ('&' :: 'g' :: 't' :: ';' :: _) = _
    rw [unescapeStr, if_pos rfl]
    show (unescapeStr _).map ('>' :: ·) = _
    rw [List.append_eq, ih]
    cases unescapeStr b <;> simp
  | quot _ ih =>
    show unescapeStr ('&' :: 'q' :: 'u' :: 'o' :: 't' :: ';' :: _) = _
    rw [unescapeStr, if_pos rfl]
    show (unescapeStr _).map ('"' :: ·) = _
    rw [List.append_eq, ih]
    cases unescapeStr b <;> simp
  | apos _ ih =>
    show unescapeStr ('&' :: 'a' :: 'p' :: 'o' :: 's' :: ';' :: _) = _
    rw [unescapeStr, if_pos rfl]
    show (unescapeStr _).map ('\'' :: ·) = _
    rw [List.append_eq, ih]
    cases unescapeStr b <;> simp

theorem Unesc.unescape {a u : Str} (h : Unesc a u) : unescapeStr a = some u := by
  have h2 := h.unescape_append []
  simpa [unescapeStr] using h2

theorem escape_clean (s : Str) : ∀ x ∈ XmlEd.escapeXMLChars s, x ≠ '<' ∧ x ≠ '"' := by
  induction s with
  | nil => intro x hx; simp [XmlEd.escapeXMLChars] at hx
  | cons c r ih =>
    intro x hx
    by_cases h1 : c = '&'
    · subst h1; simp [XmlEd.escapeXMLChars] at hx
      rcases hx with rfl | rfl | rfl | rfl | rfl | hm
      · exact ⟨by decide, by decide⟩
      · exact ⟨by decide, by decide⟩
      · exact ⟨by decide, by decide⟩
      · exact ⟨by decide, by decide⟩
      · exact ⟨by decide, by decide⟩
      · exact ih x hm
    · by_cases h2 : c = '<'
      · subst h2; simp [XmlEd.escapeXMLChars] at hx
        rcases hx with rfl | rfl | rfl | rfl | hm
        · exact ⟨by decide, by decide⟩
        · exact ⟨by decide, by decide⟩
        · exact ⟨by decide, by decide⟩
        · exact ⟨by decide, by decide⟩
        · exact ih x hm
      · by_cases h3 : c = '>'
        · subst h3; simp [XmlEd.escapeXMLChars] at hx
          rcases hx with rfl | rfl | rfl | rfl | hm
          · exact ⟨by decide, by decide⟩
          · exact ⟨by decide, by decide⟩
          · exact ⟨by decide, by decide⟩
          · exact ⟨by decide, by decide⟩
          · exact ih x hm
        · by_cases h4 : c = '"'
          · subst h4; simp [XmlEd.escapeXMLChars] at hx
            rcases hx with rfl | rfl | rfl | rfl | rfl | rfl | hm
            · exact ⟨by decide, by decide⟩
            · exact ⟨by decide, by decide⟩
            · exact ⟨by decide, by decide⟩
            · exact ⟨by decide, by decide⟩
            · exact ⟨by decide, by decide⟩
            · exact ⟨by decide, by decide⟩
            · exact ih x hm
          · by_cases h5 : c = '\''
            · subst h5; simp [XmlEd.escapeXMLChars] at hx
              rcases hx with rfl | rfl | rfl | rfl | rfl | rfl | hm
              · exact ⟨by decide, by decide⟩
              · exact ⟨by decide, by decide⟩
              · exact ⟨by decide, by decide⟩
              · exact ⟨by decide, by decide⟩
              · exact ⟨by decide, by decide⟩
              · exact ⟨by decide, by decide⟩
              · exact ih x hm
            · simp [XmlEd.escapeXMLChars, h1, h2, h3, h4, h5] at hx
              rcases hx with rfl | hm
              · exact ⟨h2, h4⟩
              · exact ih x hm

end XmlSer
namespace XmlSer

theorem readCharData_walk {s1 : Str} (h : ∀ c ∈ s1, c ≠ '<') :
    ∀ (acc rest : Str),
      readCharData acc (s1 ++ rest) = readCharData (acc ++ s1) rest := by
  induction s1 with
  | nil => intro acc rest; simp
  | cons c r ih =>
    intro acc rest
    have hc : c ≠ '<' := h c (List.mem_cons_self c r)
    rw [List.cons_append, readCharData]
    rw [if_neg (by simpa using hc)]
    rw [ih (fun x hx => h x (List.mem_cons_of_mem _ hx))]
    simp

theorem readCharData_pre {a u : Str} (hu : Unesc a u) :
    ∀ (b rest : Str),
      readCharData (a ++ b) rest = (readCharData b rest).map (mergeCD u) := by
  intro b rest
  induction rest generalizing b with
  | nil =>
    rw [readCharData, readCharData]
    rw [hu.unescape_append b]
    cases hb : unescapeStr b <;> simp [mergeCD]
  | cons c r ih =>
    rw [readCharData, readCharData]
    by_cases hc : c = '<'
    · rw [if_pos (by simpa using hc), if_pos (by simpa using hc)]
      rw [hu.unescape_append b]
      cases hb : unescapeStr b <;>
        cases ht : tokenizeTag r <;> simp [mergeCD]
    · rw [if_neg (by simpa using hc), if_neg (by simpa using hc)]
      rw [List.append_assoc]
      exact ih (b ++ [c])

end XmlSer
namespace XmlSer

theorem tokenize_cons (c : Char) (r : Str) :
    tokenize (c :: r) = if c = '<' then tokenizeTag r else readCharData [c] r := rfl

theorem mergeCD_not_cd {ts : List Token} (h : ∀ d r2, ts ≠ Token.chardata d :: r2)
    (u : Str) :
    mergeCD u ts = if u.isEmpty then ts else Token.chardata u :: ts := by
  cases ts with
  | nil => rfl
  | cons tok rest =>
    cases tok with
    | chardata d => exact absurd rfl (h d rest)
    | start tag attrs => rfl
    | endTag tag => rfl
    | procInst => rfl

theorem readCharData_merge {ws u : Str} (hu : Unesc ws u) (hne : u ≠ [])
    {rest : Str} {ts : List Token} (htk : tokenize rest = some ts)
    (hhd : rest.head? = some '<' → ∀ d r2, ts ≠ Token.chardata d :: r2) :
    readCharData ws rest = some (mergeCD u ts) := by
  have hpre := readCharData_pre hu [] rest
  rw [List.append_nil] at hpre
  rw [hpre]
  cases rest with
  | nil =>
    have : ts = [] := by
      have : (some [] : Option (List Token)) = some ts := htk
      simpa using this.symm
    subst this
    have hemp : u.isEmpty = false := by
      cases u with
      | nil => exact absurd rfl hne
      | cons a b => rfl
    simp [readCharData, unescapeStr, mergeCD, hemp]
  | cons c r =>
    by_cases hc : c = '<'
    · subst hc
      rw [tokenize_cons, if_pos rfl] at htk
      rw [readCharData]
      rw [if_pos rfl]
      have hun : unescapeStr [] = some [] := rfl
      rw [hun, htk]
      have h2 := hhd rfl
      have hemp : u.isEmpty = false := by
        cases u with
        | nil => exact absurd rfl hne
        | cons a b => rfl
      rw [mergeCD_not_cd h2 u]
      simp [mergeCD, hemp]
    · rw [tokenize_cons, if_neg hc] at htk
      rw [readCharData]
      rw [if_neg (by simpa using hc)]
      rw [show ([] : Str) ++ [c] = [c] from rfl, htk]
      rfl

end XmlSer
namespace XmlSer

theorem mergeCD_nil (ts : List Token) : mergeCD [] ts = ts := by
  cases ts with
  | nil => rfl
  | cons tok r => cases tok <;> rfl

theorem isAlphanum_ne {c : Char} (hc : c.isAlphanum = true) :
    c ≠ '<' ∧ c ≠ '>' ∧ c ≠ '/' ∧ c ≠ ' ' ∧ c ≠ '?' ∧ c ≠ '!' ∧ c ≠ '&' ∧
      c ≠ '=' ∧ c ≠ '"' ∧ c ≠ '\'' ∧ c ≠ '\n' := by
  refine ⟨?_, ?_, ?_, ?_, ?_, ?_, ?_, ?_, ?_, ?_, ?_⟩ <;>
    { intro h; subst h; exact absurd hc (by decide) }

theorem readEndName_walk {s : Str} (h : ∀ c ∈ s, c.isAlphanum = true) :
    ∀ (acc rest : Str), readEndName acc (s ++ rest) = readEndName (acc ++ s) rest := by
  induction s with
  | nil => intro acc rest; simp
  | cons c r ih =>
    intro acc rest
    have hc := h c (List.mem_cons_self c r)
    rw [List.cons_append, readEndName, if_pos hc,
      ih (fun x hx => h x (List.mem_cons_of_mem _ hx)),
      List.append_assoc, List.singleton_append]


theorem readStartName_alnum {c : Char} (hc : c.isAlphanum = true) (acc r : Str) :
    readStartName acc (c :: r) = readStartName (acc ++ [c]) r := by
  rw [readStartName.eq_def]
  split
  · simp_all
  · rename_i c2 cs2 heq
    obtain ⟨h1, h2⟩ := List.cons.inj heq
    subst h1; subst h2
    rw [if_pos hc]

theorem readAttrName_alnum {c : Char} (hc : c.isAlphanum = true)
    (tag : Str) (acc : List (Str × Str)) (k r : Str) :
    readAttrName tag acc k (c :: r) = readAttrName tag acc (k ++ [c]) r := by
  rw [readAttrName.eq_def]
  split
  · simp_all
  · rename_i c2 cs2 heq
    obtain ⟨h1, h2⟩ := List.cons.inj heq
    subst h1; subst h2
    rw [if_pos hc]

theorem readStartName_walk {s : Str} (h : ∀ c ∈ s, c.isAlphanum = true) :
    ∀ (acc rest : Str), readStartName acc (s ++ rest) = readStartName (acc ++ s) rest := by
  induction s with
  | nil => intro acc rest; simp
  | cons c r ih =>
    intro acc rest
    have hc := h c (List.mem_cons_self c r)
    rw [List.cons_append, readStartName_alnum hc,
      ih (fun x hx => h x (List.mem_cons_of_mem _ hx)),
      List.append_assoc, List.singleton_append]

theorem readAttrName_walk {s : Str} (h : ∀ c ∈ s, c.isAlphanum = true) :
    ∀ (tag : Str) (acc : List (Str × Str)) (k rest : Str),
      readAttrName tag acc k (s ++ rest) = readAttrName tag acc (k ++ s) rest := by
  induction s with
  | nil => intro tag acc k rest; simp
  | cons c r ih =>
    intro tag acc k rest
    have hc := h c (List.mem_cons_self c r)
    rw [List.cons_append, readAttrName_alnum hc,
      ih (fun x hx => h x (List.mem_cons_of_mem _ hx)),
      List.append_assoc, List.singleton_append]

theorem readAttrValue_walk {s : Str} (h : ∀ c ∈ s, c ≠ '"') :
    ∀ (tag : Str) (acc : List (Str × Str)) (k v rest : Str),
      readAttrValue tag acc k v (s ++ rest) = readAttrValue tag acc k (v ++ s) rest := by
  induction s with
  | nil => intro tag acc k v rest; simp
  | cons c r ih =>
    intro tag acc k v rest
    have hc := h c (List.mem_cons_self c r)
    rw [List.cons_append, readAttrValue, if_neg hc,
      ih (fun x hx => h x (List.mem_cons_of_mem _ hx)),
      List.append_assoc, List.singleton_append]

theorem tokenize_lt (X : Str) : tokenize ('<' :: X) = tokenizeTag X := rfl

theorem tokenizeTag_slash (X : Str) : tokenizeTag ('/' :: X) = readEndName [] X := rfl

theorem tokenizeTag_alnum {c : Char} (hc : c.isAlphanum = true) (r : Str) :
    tokenizeTag (c :: r) = readStartName [c] r := by
  have h1 : c ≠ '?' := (isAlphanum_ne hc).2.2.2.2.1
  have h2 : c ≠ '/' := (isAlphanum_ne hc).2.2.1
  rw [tokenizeTag.eq_def]
  split
  · next heq => exact absurd heq (by simp)
  · next r2 heq =>
    exact absurd (List.cons.inj heq).1 h1
  · next r2 heq =>
    exact absurd (List.cons.inj heq).1 h2
  · next c2 r2 h3 h4 heq =>
    obtain ⟨hcc, hrr⟩ := List.cons.inj heq
    subst hcc; subst hrr
    rw [if_pos hc]

theorem readStartName_space (acc X : Str) :
    readStartName acc (' ' :: X) = attrsLoop acc [] X := rfl

theorem readStartName_gt (acc X : Str) :
    readStartName acc ('>' :: X) = (tokenize X).map (Token.start acc [] :: ·) := rfl

theorem readStartName_close (acc X : Str) :
    readStartName acc ('/' :: '>' :: X)
      = (tokenize X).map (fun ts => Token.start acc [] :: Token.endTag acc :: ts) := rfl

theorem attrsLoop_space (tag : Str) (acc : List (Str × Str)) (X : Str) :
    attrsLoop tag acc (' ' :: X) = attrsLoop tag acc X := rfl

theorem attrsLoop_gt (tag : Str) (acc : List (Str × Str)) (X : Str) :
    attrsLoop tag acc ('>' :: X) = (tokenize X).map (Token.start tag acc :: ·) := rfl

theorem attrsLoop_close (tag : Str) (acc : List (Str × Str)) (X : Str) :
    attrsLoop tag acc ('/' :: '>' :: X)
      = (tokenize X).map (fun ts => Token.start tag acc :: Token.endTag tag :: ts) := rfl

theorem attrsLoop_alnum {c : Char} (hc : c.isAlphanum = true)
    (tag : Str) (acc : List (Str × Str)) (X : Str) :
    attrsLoop tag acc (c :: X) = readAttrName tag acc [c] X := by
  have h2 : c ≠ '>' := (isAlphanum_ne hc).2.1
  have h3 : c ≠ '/' := (isAlphanum_ne hc).2.2.1
  have h4 : c ≠ ' ' := (isAlphanum_ne hc).2.2.2.1
  rw [attrsLoop.eq_def]
  split
  · simp_all
  · rename_i c2 cs2 heq
    obtain ⟨h1, h2⟩ := List.cons.inj heq
    subst h1; subst h2
    rw [if_neg h4, if_neg h2, if_neg h3, if_pos hc]

theorem readAttrName_eq (tag : Str) (acc : List (Str × Str)) (k X : Str) :
    readAttrName tag acc k ('=' :: '"' :: X) = readAttrValue tag acc k [] X := rfl

theorem readAttrValue_quote {v v2 : Str} (hv : unescapeStr v = some v2)
    (tag : Str) (acc : List (Str × Str)) (k X : Str) :
    readAttrValue tag acc k v ('"' :: X) = attrsLoop tag (acc ++ [(k, v2)]) X := by
  rw [readAttrValue, if_pos rfl, hv]

theorem readEndName_gt (acc X : Str) :
    readEndName acc ('>' :: X) = (tokenize X).map (Token.endTag acc :: ·) := rfl

theorem tokenize_app_ws {ws : Str} (hws : ∀ c ∈ ws, c ≠ '&' ∧ c ≠ '<')
    {body : Str} {ts : List Token} (htk : tokenize body = some ts)
    (hhd : body.head? = some '<' → ∀ d r2, ts ≠ Token.chardata d :: r2) :
    tokenize (ws ++ body) = some (mergeCD ws ts) := by
  cases ws with
  | nil => rw [List.nil_append, mergeCD_nil]; exact htk
  | cons w ws' =>
    have hw := hws w (List.mem_cons_self w ws')
    rw [List.cons_append, tokenize_cons, if_neg hw.2,
      readCharData_walk (fun c hc => (hws c (List.mem_cons_of_mem _ hc)).2) [w] body]
    exact readCharData_merge
      (Unesc.of_no_amp (fun c hc => (hws c hc).1)) (by simp) htk hhd

end XmlSer
namespace XmlSer

theorem goodNameB_elim {s : Str} (h : goodNameB s = true) :
    s ≠ [] ∧ ∀ c ∈ s, c.isAlphanum = true := by
  simp only [goodNameB, Bool.and_eq_true, Bool.not_eq_true', List.isEmpty_eq_false,
    List.all_eq_true] at h
  exact ⟨by simpa using h.1, h.2⟩

theorem ind_spc {i : Nat} : ∀ c ∈ ind i, c = ' ' :=
  fun _ hc => List.eq_of_mem_replicate hc

theorem ind_ws {i : Nat} : ∀ c ∈ ind i, c ≠ '&' ∧ c ≠ '<' := by
  intro c hc
  rw [ind_spc c hc]
  exact ⟨by decide, by decide⟩

theorem ind_zero : ind 0 = [] := rfl

theorem unescape_escape (v : Str) :
    unescapeStr (XmlEd.escapeXMLChars v) = some v := by
  have h := Unesc.unescape (a := XmlEd.escapeXMLChars v ++ []) (u := v ++ [])
    (Unesc.escape v Unesc.nil)
  simpa using h

theorem attrsLoop_serializeAttrs {attrs : List (Str × Str)}
    (h : ∀ p ∈ attrs, goodNameB p.1 = true) :
    ∀ (tag : Str) (acc : List (Str × Str)) (rest : Str),
      attrsLoop tag acc (serializeAttrs attrs ++ rest)
        = attrsLoop tag (acc ++ attrs) rest := by
  induction attrs with
  | nil => intro tag acc rest; simp [serializeAttrs]
  | cons p ps ih =>
    obtain ⟨k, v⟩ := p
    intro tag acc rest
    have hk := h (k, v) (List.mem_cons_self _ _)
    obtain ⟨hne, hall0⟩ := goodNameB_elim hk
    obtain ⟨k0, k', rfl⟩ : ∃ k0 k', k = k0 :: k' := by
      cases k with
      | nil => exact absurd rfl hne
      | cons a b => exact ⟨a, b, rfl⟩
    rw [show serializeAttrs ((k0 :: k', v) :: ps)
        = ' ' :: ((k0 :: k') ++ '=' :: '"' ::
            (XmlEd.escapeXMLChars v ++ '"' :: serializeAttrs ps)) from rfl]
    rw [List.cons_append, attrsLoop_space, List.append_assoc, List.cons_append]
    rw [attrsLoop_alnum (hall0 k0 (List.mem_cons_self _ _)),
      readAttrName_walk (fun c hc => hall0 c (List.mem_cons_of_mem _ hc)),
      List.singleton_append]
    rw [List.cons_append, List.cons_append, readAttrName_eq]
    rw [List.append_assoc, List.cons_append]
    rw [readAttrValue_walk (fun c hc => (escape_clean v c hc).2), List.nil_append]
    rw [readAttrValue_quote (unescape_escape v)]
    rw [ih (fun p hp => h p (List.mem_cons_of_mem _ hp))]
    rw [List.append_assoc, List.singleton_append]

theorem open_tag_gt {tag : Str} (htag : goodNameB tag = true)
    {attrs : List (Str × Str)} (hattrs : ∀ p ∈ attrs, goodNameB p.1 = true)
    (X : Str) :
    tokenizeTag (tag ++ (serializeAttrs attrs ++ '>' :: X))
      = (tokenize X).map (Token.start tag attrs :: ·) := by
  obtain ⟨hne, hall⟩ := goodNameB_elim htag
  obtain ⟨t0, t', rfl⟩ : ∃ t0 t', tag = t0 :: t' := by
    cases tag with
    | nil => exact absurd rfl hne
    | cons a b => exact ⟨a, b, rfl⟩
  rw [List.cons_append, tokenizeTag_alnum (hall t0 (List.mem_cons_self _ _)),
    readStartName_walk (fun c hc => hall c (List.mem_cons_of_mem _ hc)),
    List.singleton_append]
  cases attrs with
  | nil =>
    rw [show serializeAttrs [] = [] from rfl, List.nil_append, readStartName_gt]
  | cons a as =>
    obtain ⟨k, v⟩ := a
    rw [show serializeAttrs ((k, v) :: as) ++ '>' :: X
        = ' ' :: ((k ++ '=' :: '"' ::
            (XmlEd.escapeXMLChars v ++ '"' :: serializeAttrs as)) ++ '>' :: X)
      from rfl]
    rw [readStartName_space]
    have h2 := attrsLoop_serializeAttrs hattrs ((t0 : Char) :: t') [] ('>' :: X)
    rw [show serializeAttrs ((k, v) :: as) ++ '>' :: X
        = ' ' :: ((k ++ '=' :: '"' ::
            (XmlEd.escapeXMLChars v ++ '"' :: serializeAttrs as)) ++ '>' :: X)
      from rfl, attrsLoop_space] at h2
    rw [h2, List.nil_append, attrsLoop_gt]

theorem open_tag_close {tag : Str} (htag : goodNameB tag = true)
    {attrs : List (Str × Str)} (hattrs : ∀ p ∈ attrs, goodNameB p.1 = true)
    (X : Str) :
    tokenizeTag (tag ++ (serializeAttrs attrs ++ '/' :: '>' :: X))
      = (tokenize X).map (fun ts => Token.start tag attrs :: Token.endTag tag :: ts) := by
  obtain ⟨hne, hall⟩ := goodNameB_elim htag
  obtain ⟨t0, t', rfl⟩ : ∃ t0 t', tag = t0 :: t' := by
    cases tag with
    | nil => exact absurd rfl hne
    | cons a b => exact ⟨a, b, rfl⟩
  rw [List.cons_append, tokenizeTag_alnum (hall t0 (List.mem_cons_self _ _)),
    readStartName_walk (fun c hc => hall c (List.mem_cons_of_mem _ hc)),
    List.singleton_append]
  cases attrs with
  | nil =>
    rw [show serializeAttrs [] = [] from rfl, List.nil_append, readStartName_close]
  | cons a as =>
    obtain ⟨k, v⟩ := a
    rw [show serializeAttrs ((k, v) :: as) ++ '/' :: '>' :: X
        = ' ' :: ((k ++ '=' :: '"' ::
            (XmlEd.escapeXMLChars v ++ '"' :: serializeAttrs as)) ++ '/' :: '>' :: X)
      from rfl]
    rw [readStartName_space]
    have h2 := attrsLoop_serializeAttrs hattrs ((t0 : Char) :: t') [] ('/' :: '>' :: X)
    rw [show serializeAttrs ((k, v) :: as) ++ '/' :: '>' :: X
        = ' ' :: ((k ++ '=' :: '"' ::
            (XmlEd.escapeXMLChars v ++ '"' :: serializeAttrs as)) ++ '/' :: '>' :: X)
      from rfl, attrsLoop_space] at h2
    rw [h2, List.nil_append, attrsLoop_close]

theorem close_tag {tag : Str} (htag : goodNameB tag = true)
    {rest : Str} {ts : List Token} (htk : tokenize rest = some ts)
    (hhd : rest.head? = some '<' → ∀ d r2, ts ≠ Token.chardata d :: r2) (i : Nat) :
    tokenize ((ind i ++ '<' :: '/' :: (tag ++ '>' :: ['\n'])) ++ rest)
      = some (mergeCD (ind i) (Token.endTag tag :: mergeCD ['\n'] ts)) := by
  obtain ⟨hne, hall⟩ := goodNameB_elim htag
  rw [List.append_assoc, List.cons_append, List.cons_append, List.append_assoc]
  refine tokenize_app_ws ind_ws ?_ ?_
  · rw [tokenize_lt, tokenizeTag_slash,
      show tag ++ (['>', '\n'] ++ rest) = tag ++ ('>' :: '\n' :: rest) from rfl]
    rw [readEndName_walk hall [] ('>' :: '\n' :: rest), List.nil_append,
      readEndName_gt]
    have h3 := @tokenize_app_ws ['\n'] (by decide) rest ts htk hhd
    rw [show (['\n'] : Str) ++ rest = '\n' :: rest from rfl] at h3
    rw [h3]
    rfl
  · intro _ d r2 hcontra
    simp at hcontra
end XmlSer

namespace XmlSer

theorem tokenize_app_unesc {w : Char} {ws1 u : Str} (hu : Unesc (w :: ws1) u)
    (hw : w ≠ '<') (hws : ∀ c ∈ ws1, c ≠ '<') (hne : u ≠ [])
    {body : Str} {ts : List Token} (htk : tokenize body = some ts)
    (hhd : body.head? = some '<' → ∀ d r2, ts ≠ Token.chardata d :: r2) :
    tokenize ((w :: ws1) ++ body) = some (mergeCD u ts) := by
  rw [List.cons_append, tokenize_cons, if_neg hw, readCharData_walk hws [w] body]
  exact readCharData_merge hu hne htk hhd

theorem nodeToks_zero_start (t : XmlTree) (cont : List Token) :
    ∀ d r2, nodeToks t 0 cont ≠ Token.chardata d :: r2 := by
  obtain ⟨tag, attrs, text, children⟩ := t
  intro d r2
  rw [nodeToks, show ind 0 = ([] : Str) from rfl, mergeCD_nil]
  split <;> simp

theorem head_ind_succ (j : Nat) (X : Str) : (ind (j + 1) ++ X).head? = some ' ' := by
  rw [ind, show 4 * (j + 1) = (4 * j + 3) + 1 from by omega, List.replicate_succ,
    List.cons_append]
  rfl

theorem serializeNode_succ_head (t : XmlTree) (j : Nat) (X : Str) :
    (serializeNode t (j + 1) ++ X).head? = some ' ' := by
  obtain ⟨tag, attrs, text, children⟩ := t
  rw [serializeNode, List.append_assoc]
  exact head_ind_succ j _

theorem childrenToks_hd (cs : List XmlTree) (i : Nat) {rest : Str} {ts : List Token}
    (hhd : rest.head? = some '<' → ∀ d r2, ts ≠ Token.chardata d :: r2) :
    (serializeChildren cs i ++ rest).head? = some '<' →
      ∀ d r2, childrenToks cs i ts ≠ Token.chardata d :: r2 := by
  cases cs with
  | nil =>
    intro h
    rw [show serializeChildren [] i = [] from rfl, List.nil_append] at h
    simpa [childrenToks] using hhd h
  | cons c cs2 =>
    intro h
    cases i with
    | zero =>
      rw [childrenToks]
      exact nodeToks_zero_start c _
    | succ j =>
      exfalso
      rw [serializeChildren, List.append_assoc, serializeNode_succ_head c j] at h
      simp at h

theorem tokenize_serialize_strong (n : Nat) :
    (∀ t : XmlTree, sizeOf t ≤ n → wfB t = true →
      ∀ (i : Nat) (rest : Str) (ts : List Token), tokenize rest = some ts →
        (rest.head? = some '<' → ∀ d r2, ts ≠ Token.chardata d :: r2) →
        tokenize (serializeNode t i ++ rest) = some (nodeToks t i ts)) ∧
    (∀ cs : List XmlTree, sizeOf cs ≤ n → wfListB cs = true →
      ∀ (i : Nat) (rest : Str) (ts : List Token), tokenize rest = some ts →
        (rest.head? = some '<' → ∀ d r2, ts ≠ Token.chardata d :: r2) →
        tokenize (serializeChildren cs i ++ rest) = some (childrenToks cs i ts)) := by
  induction n with
  | zero =>
    constructor
    · intro t hle
      obtain ⟨tag, attrs, text, children⟩ := t
      exfalso
      have : 0 < sizeOf (XmlTree.node tag attrs text children) := by
        simp only [XmlTree.node.sizeOf_spec]; omega
      omega
    · intro cs hle
      exfalso
      have : 0 < sizeOf cs := by cases cs <;> simp
      omega
  | succ n ih =>
    constructor
    · intro t hle hwf i rest ts htk hhd
      obtain ⟨tag, attrs, text, children⟩ := t
      have hsz : sizeOf children ≤ n := by
        have h := hle
        simp only [XmlTree.node.sizeOf_spec] at h
        have h1 : 0 < sizeOf tag := by
          cases tag <;> { simp only [List.nil.sizeOf_spec, List.cons.sizeOf_spec]; omega }
        omega
      rw [wfB] at hwf
      simp only [Bool.and_eq_true] at hwf
      obtain ⟨⟨⟨⟨htag, hattrs⟩, hnodup⟩, htrim⟩, hch⟩ := hwf
      have hattrs' : ∀ p ∈ attrs, goodNameB p.1 = true := by
        simpa [List.all_eq_true] using hattrs
      rw [serializeNode, nodeToks]
      by_cases hec : (text.isEmpty && children.isEmpty) = true
      · rw [if_pos hec, if_pos hec]
        have hnl := @tokenize_app_ws ['\n'] (by decide) rest ts htk hhd
        rw [show (['\n'] : Str) ++ rest = '\n' :: rest from rfl] at hnl
        have h4 := open_tag_close htag hattrs' ('\n' :: rest)
        have h5 : tokenize ('<' :: (tag ++ (serializeAttrs attrs ++ '/' :: '>' :: '\n' :: rest)))
            = some (Token.start tag attrs :: Token.endTag tag :: mergeCD ['\n'] ts) := by
          rw [tokenize_lt, h4, hnl]
          rfl
        have h6 := @tokenize_app_ws (ind i) ind_ws _ _ h5
          (by intro _ d r2 hx; simp at hx)
        simp only [List.append_assoc, List.cons_append, List.nil_append]
        simpa only [List.append_assoc, List.cons_append, List.nil_append] using h6
      · rw [if_neg hec, if_neg hec]
        have h1 := close_tag htag htk hhd i
        have hh1 : ((ind i ++ '<' :: '/' :: (tag ++ '>' :: ['\n'])) ++ rest).head? = some '<' →
            ∀ d r2, mergeCD (ind i) (Token.endTag tag :: mergeCD ['\n'] ts)
              ≠ Token.chardata d :: r2 := by
          cases i with
          | zero =>
            intro _
            rw [show ind 0 = ([] : Str) from rfl, mergeCD_nil]
            simp
          | succ j =>
            intro h
            exfalso
            rw [List.append_assoc, head_ind_succ j] at h
            simp at h
        have h2 := ih.2 children hsz hch (i + 1) _ _ h1 hh1
        have hh2 := childrenToks_hd children (i + 1) hh1
        have hu : Unesc
            ('\n' :: (if text.isEmpty then []
              else ind (i + 1) ++ XmlEd.escapeXMLChars text ++ ['\n']))
            ('\n' :: (if text.isEmpty then [] else ind (i + 1) ++ text ++ ['\n'])) := by
          by_cases htxt : text.isEmpty = true
          · rw [if_pos htxt, if_pos htxt]
            exact Unesc.plain (by decide) Unesc.nil
          · rw [if_neg htxt, if_neg htxt]
            refine Unesc.plain (by decide) ?_
            rw [List.append_assoc, List.append_assoc]
            exact Unesc.append (Unesc.of_no_amp (fun c hc => by rw [ind_spc c hc]; decide))
              (Unesc.escape text (Unesc.plain (by decide) Unesc.nil))
        have hnolt : ∀ c ∈ (if text.isEmpty then []
            else ind (i + 1) ++ XmlEd.escapeXMLChars text ++ ['\n']), c ≠ '<' := by
          by_cases htxt : text.isEmpty = true
          · rw [if_pos htxt]; intro c hc; simp at hc
          · rw [if_neg htxt]
            intro c hc
            rcases List.mem_append.mp hc with hc2 | hc3
            · rcases List.mem_append.mp hc2 with hc4 | hc5
              · rw [ind_spc c hc4]; decide
              · exact (escape_clean text c hc5).1
            · simp at hc3; rw [hc3]; decide
        have h3 := tokenize_app_unesc hu (by decide) hnolt (by simp) h2 hh2
        rw [List.cons_append] at h3
        have h4 := open_tag_gt htag hattrs'
          ('\n' :: ((if text.isEmpty then []
              else ind (i + 1) ++ XmlEd.escapeXMLChars text ++ ['\n'])
            ++ (serializeChildren children (i + 1)
              ++ ((ind i ++ '<' :: '/' :: (tag ++ '>' :: ['\n'])) ++ rest))))
        have h5 : tokenize ('<' :: (tag ++ (serializeAttrs attrs ++ '>' ::
            '\n' :: ((if text.isEmpty then []
                else ind (i + 1) ++ XmlEd.escapeXMLChars text ++ ['\n'])
              ++ (serializeChildren children (i + 1)
                ++ ((ind i ++ '<' :: '/' :: (tag ++ '>' :: ['\n'])) ++ rest))))))
            = some (Token.start tag attrs ::
                mergeCD ('\n' :: (if text.isEmpty then []
                    else ind (i + 1) ++ text ++ ['\n']))
                  (childrenToks children (i + 1)
                    (mergeCD (ind i) (Token.endTag tag :: mergeCD ['\n'] ts)))) := by
          rw [tokenize_lt, h4, h3]
          rfl
        have h6 := @tokenize_app_ws (ind i) ind_ws _ _ h5
          (by intro _ d r2 hx; simp at hx)
        simp only [List.append_assoc, List.cons_append, List.nil_append]
        simpa only [List.append_assoc, List.cons_append, List.nil_append] using h6
    · intro cs hle hwf i rest ts htk hhd
      cases cs with
      | nil => simpa [serializeChildren, childrenToks] using htk
      | cons c cs2 =>
        have hszc : sizeOf c ≤ n := by
          have h := hle
          simp only [List.cons.sizeOf_spec] at h
          have h1 : 0 < sizeOf cs2 := by cases cs2 <;> simp
          omega
        have hszs : sizeOf cs2 ≤ n := by
          have h := hle
          simp only [List.cons.sizeOf_spec] at h
          have h1 : 0 < sizeOf c := by
            obtain ⟨tg, a, tx, ch⟩ := c
            simp only [XmlTree.node.sizeOf_spec]; omega
          omega
        rw [wfListB] at hwf
        simp only [Bool.and_eq_true] at hwf
        obtain ⟨hwfc, hwfcs⟩ := hwf
        rw [serializeChildren, childrenToks, List.append_assoc]
        have hrec := ih.2 cs2 hszs hwfcs i _ _ htk hhd
        exact ih.1 c hszc hwfc i _ _ hrec (childrenToks_hd cs2 i hhd)

theorem tokenize_serializeNode (t : XmlTree) (hwf : wfB t = true) (i : Nat)
    {rest : Str} {ts : List Token} (htk : tokenize rest = some ts)
    (hhd : rest.head? = some '<' → ∀ d r2, ts ≠ Token.chardata d :: r2) :
    tokenize (serializeNode t i ++ rest) = some (nodeToks t i ts) :=
  (tokenize_serialize_strong (sizeOf t)).1 t (Nat.le_refl _) hwf i rest ts htk hhd

theorem tokenize_serializeChildren (cs : List XmlTree) (hwf : wfListB cs = true) (i : Nat)
    {rest : Str} {ts : List Token} (htk : tokenize rest = some ts)
    (hhd : rest.head? = some '<' → ∀ d r2, ts ≠ Token.chardata d :: r2) :
    tokenize (serializeChildren cs i ++ rest) = some (childrenToks cs i ts) :=
  (tokenize_serialize_strong (sizeOf cs)).2 cs (Nat.le_refl _) hwf i rest ts htk hhd

end XmlSer
namespace XmlSer

theorem dropWhile_app_ws {ws : Str} (hws : ∀ c ∈ ws, isSpc c = true) :
    ∀ d : Str, List.dropWhile isSpc (ws ++ d) = List.dropWhile isSpc d := by
  induction ws with
  | nil => intro d; rw [List.nil_append]
  | cons c r ih =>
    intro d
    rw [List.cons_append, List.dropWhile_cons,
      if_pos (hws c (List.mem_cons_self c r)),
      ih (fun x hx => hws x (List.mem_cons_of_mem _ hx))]

theorem trim_pre_ws {ws : Str} (hws : ∀ c ∈ ws, isSpc c = true) (d : Str) :
    trimSpace (ws ++ d) = trimSpace d := by
  rw [trimSpace, trimSpace, dropWhile_app_ws hws]

theorem trim_ws {ws : Str} (hws : ∀ c ∈ ws, isSpc c = true) : trimSpace ws = [] := by
  have h := trim_pre_ws hws []
  rw [List.append_nil] at h
  rw [h]
  rfl

theorem trim_eq_self_facts {s : Str} (h : trimSpace s = s) :
    s.dropWhile isSpc = s ∧ s.reverse.dropWhile isSpc = s.reverse := by
  have h1 : (s.dropWhile isSpc).length ≤ s.length := (List.dropWhile_sublist _).length_le
  have h2 : ((s.dropWhile isSpc).reverse.dropWhile isSpc).length
      ≤ (s.dropWhile isSpc).reverse.length := (List.dropWhile_sublist _).length_le
  have hlen : (trimSpace s).length = s.length := by rw [h]
  rw [trimSpace] at hlen
  simp only [List.length_reverse] at hlen h2
  have e1 : s.dropWhile isSpc = s := (List.dropWhile_sublist _).eq_of_length (by omega)
  refine ⟨e1, ?_⟩
  have h4 := congrArg List.reverse h
  rw [trimSpace, List.reverse_reverse, e1] at h4
  exact h4

theorem trim_self_head {s : Str} (h : trimSpace s = s) {c : Char} {s' : Str}
    (hs : s = c :: s') : isSpc c = false := by
  have e1 := (trim_eq_self_facts h).1
  rw [hs, List.dropWhile_cons] at e1
  by_cases hc : isSpc c = true
  · rw [if_pos hc] at e1
    have h5 := congrArg List.length e1
    have hl : (List.dropWhile isSpc s').length ≤ s'.length :=
      (List.dropWhile_sublist _).length_le
    simp only [List.length_cons] at h5
    omega
  · simpa using hc

theorem trim_post {s : Str} (h : trimSpace s = s) (hne : s ≠ [])
    {b : Str} (hb : ∀ c ∈ b, isSpc c = true) : trimSpace (s ++ b) = s := by
  obtain ⟨c, s', rfl⟩ : ∃ c s', s = c :: s' := by
    cases s with
    | nil => exact absurd rfl hne
    | cons a t => exact ⟨a, t, rfl⟩
  have hc := trim_self_head h rfl
  rw [trimSpace]
  have hd : List.dropWhile isSpc ((c :: s') ++ b) = (c :: s') ++ b := by
    rw [List.cons_append, List.dropWhile_cons, if_neg (by simp [hc])]
  rw [hd, List.reverse_append,
    dropWhile_app_ws (fun x hx => hb x (List.mem_reverse.mp hx)),
    (trim_eq_self_facts h).2, List.reverse_reverse]

theorem trim_wrap {pre s post : Str}
    (hpre : ∀ c ∈ pre, isSpc c = true) (hpost : ∀ c ∈ post, isSpc c = true)
    (h : trimSpace s = s) (hne : s ≠ []) :
    trimSpace (pre ++ (s ++ post)) = s := by
  rw [trim_pre_ws hpre, trim_post h hne hpost]

theorem foldl_mapSetC (l : List (Str × Str)) :
    ∀ m : List (Str × Str), nodupKeysB l = true →
      (∀ p ∈ m, ∀ q ∈ l, (p.1 == q.1) = false) →
      l.foldl (fun m p => mapSetC m p.1 p.2) m = m ++ l := by
  induction l with
  | nil => intro m _ _; simp
  | cons q l' ih =>
    intro m hnodup hdis
    obtain ⟨k, v⟩ := q
    rw [nodupKeysB] at hnodup
    simp only [Bool.and_eq_true] at hnodup
    obtain ⟨hk, hn'⟩ := hnodup
    rw [List.foldl_cons]
    have hstep : mapSetC m k v = m ++ [(k, v)] := by
      rw [mapSetC]
      have hf : m.filter (fun p => !(p.1 == k)) = m :=
        List.filter_eq_self.mpr (fun p hp => by
          rw [hdis p hp (k, v) (List.mem_cons_self _ _)]
          rfl)
      rw [hf]
    rw [hstep, ih (m ++ [(k, v)]) hn' ?_, List.append_assoc, List.singleton_append]
    intro p hp q2 hq2
    rcases List.mem_append.mp hp with hp1 | hp2
    · exact hdis p hp1 q2 (List.mem_cons_of_mem _ hq2)
    · have hpk : p = (k, v) := by simpa using hp2
      subst hpk
      simp only [Bool.not_eq_true', List.any_eq_false] at hk
      have h6 : ¬ (q2.1 == k) = true := by
        have h7 := hk q2 hq2
        simp [h7]
      have h7 : q2.1 ≠ k := fun he => h6 (by rw [he]; simp)
      show (k == q2.1) = false
      rw [beq_eq_false_iff_ne]
      exact fun he => h7 he.symm

theorem buildTokens_cd (s : Str) (rest : List Token) (f : Frame) (fs : List Frame)
    (root : Option XmlTree) :
    buildTokens (Token.chardata s :: rest) (f :: fs) root
      = if (trimSpace s).isEmpty then buildTokens rest (f :: fs) root
        else buildTokens rest ({ f with text := trimSpace s } :: fs) root := rfl

theorem buildTokens_cd_nil (s : Str) (rest : List Token) (root : Option XmlTree) :
    buildTokens (Token.chardata s :: rest) [] root = buildTokens rest [] root := rfl

theorem buildTokens_start (tag : Str) (attrs : List (Str × Str)) (rest : List Token)
    (stack : List Frame) (root : Option XmlTree) :
    buildTokens (Token.start tag attrs :: rest) stack root
      = buildTokens rest
          ({ tag := tag, attrs := attrs.foldl (fun m p => mapSetC m p.1 p.2) [],
             text := [], children := [] } :: stack) root := rfl

theorem buildTokens_pi (rest : List Token) (stack : List Frame) (root : Option XmlTree) :
    buildTokens (Token.procInst :: rest) stack root = buildTokens rest stack root := rfl

theorem buildTokens_end_root (tag : Str) (rest : List Token) (f : Frame)
    (root : Option XmlTree) (h : (f.tag == tag) = true) :
    buildTokens (Token.endTag tag :: rest) [f] root
      = buildTokens rest [] (some (XmlTree.node f.tag f.attrs f.text f.children)) := by
  have h0 : buildTokens (Token.endTag tag :: rest) [f] root
      = if (f.tag == tag) = true then
          buildTokens rest [] (some (XmlTree.node f.tag f.attrs f.text f.children))
        else none := rfl
  rw [h0, if_pos h]

theorem buildTokens_end_pop (tag : Str) (rest : List Token) (f g : Frame)
    (gs : List Frame) (root : Option XmlTree) (h : (f.tag == tag) = true) :
    buildTokens (Token.endTag tag :: rest) (f :: g :: gs) root
      = buildTokens rest
          ({ g with children := g.children
              ++ [XmlTree.node f.tag f.attrs f.text f.children] } :: gs) root := by
  have h0 : buildTokens (Token.endTag tag :: rest) (f :: g :: gs) root
      = if (f.tag == tag) = true then
          buildTokens rest
            ({ g with children := g.children
                ++ [XmlTree.node f.tag f.attrs f.text f.children] } :: gs) root
        else none := rfl
  rw [h0, if_pos h]

theorem buildTokens_mergeCD_ws {ws : Str} (hws : ∀ c ∈ ws, isSpc c = true)
    (ts : List Token) (st : List Frame) (root : Option XmlTree) :
    buildTokens (mergeCD ws ts) st root = buildTokens ts st root := by
  by_cases hcd : ∃ d r2, ts = Token.chardata d :: r2
  · obtain ⟨d, r2, rfl⟩ := hcd
    rw [show mergeCD ws (Token.chardata d :: r2) = Token.chardata (ws ++ d) :: r2 from rfl]
    cases st with
    | nil => rw [buildTokens_cd_nil, buildTokens_cd_nil]
    | cons f fs => rw [buildTokens_cd, buildTokens_cd, trim_pre_ws hws]
  · push_neg at hcd
    rw [mergeCD_not_cd (fun d r2 => hcd d r2)]
    by_cases hw : ws.isEmpty = true
    · rw [if_pos hw]
    · rw [if_neg hw]
      cases st with
      | nil => rw [buildTokens_cd_nil]
      | cons f fs =>
        rw [buildTokens_cd, if_pos (by rw [trim_ws hws]; rfl)]

theorem buildTokens_mergeCD_text {pre s post : Str}
    (hpre : ∀ c ∈ pre, isSpc c = true) (hpost : ∀ c ∈ post, isSpc c = true)
    (hs : trimSpace s = s) (hne : s ≠ [])
    {ts : List Token}
    (hts : ∀ d r2, ts = Token.chardata d :: r2 → ∀ c ∈ d, isSpc c = true)
    (f : Frame) (fs : List Frame) (root : Option XmlTree) :
    buildTokens (mergeCD (pre ++ (s ++ post)) ts) (f :: fs) root
      = buildTokens ts ({ f with text := s } :: fs) root := by
  have hemp : s.isEmpty = false := by
    cases s with
    | nil => exact absurd rfl hne
    | cons a b => rfl
  by_cases hcd : ∃ d r2, ts = Token.chardata d :: r2
  · obtain ⟨d, r2, rfl⟩ := hcd
    have hd := hts d r2 rfl
    rw [show mergeCD (pre ++ (s ++ post)) (Token.chardata d :: r2)
        = Token.chardata ((pre ++ (s ++ post)) ++ d) :: r2 from rfl]
    rw [buildTokens_cd]
    have htr : trimSpace ((pre ++ (s ++ post)) ++ d) = s := by
      rw [List.append_assoc, List.append_assoc, trim_pre_ws hpre]
      exact trim_post hs hne (fun c hc => by
        rcases List.mem_append.mp hc with h1 | h2
        · exact hpost c h1
        · exact hd c h2)
    rw [htr, if_neg (by rw [hemp]; simp)]
    rw [buildTokens_cd, if_pos (by rw [trim_ws hd]; rfl)]
  · push_neg at hcd
    rw [mergeCD_not_cd (fun d r2 => hcd d r2)]
    have hwne : (pre ++ (s ++ post)).isEmpty = false := by
      cases pre with
      | nil =>
        rw [List.nil_append]
        cases s with
        | nil => exact absurd rfl hne
        | cons a b => rfl
      | cons a b => rfl
    rw [if_neg (by rw [hwne]; exact Bool.false_ne_true)]
    rw [buildTokens_cd]
    rw [if_neg (by rw [trim_wrap hpre hpost hs hne, hemp]; exact Bool.false_ne_true)]
    rw [trim_wrap hpre hpost hs hne]

theorem nodeToks_leadws (t : XmlTree) (i : Nat) (cont : List Token) :
    ∀ d r2, nodeToks t i cont = Token.chardata d :: r2 → ∀ c ∈ d, isSpc c = true := by
  obtain ⟨tag, attrs, text, children⟩ := t
  rw [nodeToks]
  have hnc : ∀ d r2,
      (if text.isEmpty && children.isEmpty then
        Token.start tag attrs :: Token.endTag tag :: mergeCD ['\n'] cont
      else
        Token.start tag attrs ::
          mergeCD ('\n' :: (if text.isEmpty then [] else ind (i + 1) ++ text ++ ['\n']))
            (childrenToks children (i + 1)
              (mergeCD (ind i) (Token.endTag tag :: mergeCD ['\n'] cont))))
        ≠ Token.chardata d :: r2 := by
    intro d r2
    split <;> simp
  rw [mergeCD_not_cd hnc]
  by_cases hw : (ind i).isEmpty = true
  · rw [if_pos hw]
    intro d r2 h
    exact absurd h (hnc d r2)
  · rw [if_neg hw]
    intro d r2 h c hc
    obtain ⟨h1, h2⟩ := List.cons.inj h
    injection h1 with hd
    rw [← hd] at hc
    rw [ind_spc c hc]
    rfl

theorem childrenToks_leadws (cs : List XmlTree) (i : Nat) {cont : List Token}
    (hcont : ∀ d r2, cont = Token.chardata d :: r2 → ∀ c ∈ d, isSpc c = true) :
    ∀ d r2, childrenToks cs i cont = Token.chardata d :: r2 → ∀ c ∈ d, isSpc c = true := by
  cases cs with
  | nil => simpa [childrenToks] using hcont
  | cons c cs2 =>
    rw [childrenToks]
    exact nodeToks_leadws c i _

theorem build_end_tail (tag : Str) (attrs : List (Str × Str)) (textF : Str)
    (children : List XmlTree) (cont : List Token) (st : List Frame)
    (root : Option XmlTree) :
    buildTokens (Token.endTag tag :: mergeCD ['\n'] cont)
        (Frame.mk tag attrs textF children :: st) root
      = buildTokens cont (pushChild (XmlTree.node tag attrs textF children) st)
          (pushRoot (XmlTree.node tag attrs textF children) st root) := by
  cases st with
  | nil =>
    rw [buildTokens_end_root tag _ _ root (by simp),
      buildTokens_mergeCD_ws (by decide)]
    rfl
  | cons g gs =>
    rw [buildTokens_end_pop tag _ _ g gs root (by simp),
      buildTokens_mergeCD_ws (by decide)]
    rfl

theorem build_CLO (tag : Str) (attrs : List (Str × Str)) (textF : Str)
    (children : List XmlTree) (i : Nat) (cont : List Token) (st : List Frame)
    (root : Option XmlTree) :
    buildTokens (mergeCD (ind i) (Token.endTag tag :: mergeCD ['\n'] cont))
        (Frame.mk tag attrs textF children :: st) root
      = buildTokens cont (pushChild (XmlTree.node tag attrs textF children) st)
          (pushRoot (XmlTree.node tag attrs textF children) st root) := by
  rw [buildTokens_mergeCD_ws (fun c hc => by rw [ind_spc c hc]; rfl)]
  exact build_end_tail tag attrs textF children cont st root

end XmlSer
namespace XmlSer

theorem build_strong (n : Nat) :
    (∀ t : XmlTree, sizeOf t ≤ n → wfB t = true →
      ∀ (i : Nat) (cont : List Token) (st : List Frame) (root : Option XmlTree),
        buildTokens (nodeToks t i cont) st root
          = buildTokens cont (pushChild t st) (pushRoot t st root)) ∧
    (∀ cs : List XmlTree, sizeOf cs ≤ n → wfListB cs = true →
      ∀ (i : Nat) (cont : List Token) (f : Frame) (fs : List Frame)
        (root : Option XmlTree),
        buildTokens (childrenToks cs i cont) (f :: fs) root
          = buildTokens cont ({ f with children := f.children ++ cs } :: fs) root) := by
  induction n with
  | zero =>
    constructor
    · intro t hle
      obtain ⟨tag, attrs, text, children⟩ := t
      exfalso
      have : 0 < sizeOf (XmlTree.node tag attrs text children) := by
        simp only [XmlTree.node.sizeOf_spec]; omega
      omega
    · intro cs hle
      exfalso
      have : 0 < sizeOf cs := by cases cs <;> simp
      omega
  | succ n ih =>
    constructor
    · intro t hle hwf i cont st root
      obtain ⟨tag, attrs, text, children⟩ := t
      have hsz : sizeOf children ≤ n := by
        have h := hle
        simp only [XmlTree.node.sizeOf_spec] at h
        have h1 : 0 < sizeOf tag := by
          cases tag <;> { simp only [List.nil.sizeOf_spec, List.cons.sizeOf_spec]; omega }
        omega
      rw [wfB] at hwf
      simp only [Bool.and_eq_true] at hwf
      obtain ⟨⟨⟨⟨htag, hattrs⟩, hnodup⟩, htrim⟩, hch⟩ := hwf
      have hfold : attrs.foldl (fun m p => mapSetC m p.1 p.2) [] = attrs := by
        have h := foldl_mapSetC attrs [] hnodup (by intro p hp; simp at hp)
        simpa using h
      rw [nodeToks, buildTokens_mergeCD_ws (fun c hc => by rw [ind_spc c hc]; rfl)]
      by_cases hec : (text.isEmpty && children.isEmpty) = true
      · rw [if_pos hec]
        simp only [Bool.and_eq_true] at hec
        obtain ⟨ht0, hc0⟩ := hec
        have htnil : text = [] := by simpa using ht0
        have hcnil : children = [] := by simpa using hc0
        subst htnil; subst hcnil
        rw [buildTokens_start, hfold]
        exact build_end_tail tag attrs [] [] cont st root
      · rw [if_neg hec]
        rw [buildTokens_start, hfold]
        have hCLO : ∀ d r2,
            mergeCD (ind i) (Token.endTag tag :: mergeCD ['\n'] cont)
              = Token.chardata d :: r2 → ∀ c ∈ d, isSpc c = true := by
          have hnc : ∀ d r2,
              (Token.endTag tag :: mergeCD ['\n'] cont) ≠ Token.chardata d :: r2 := by
            intro d r2 h; simp at h
          intro d r2 h
          rw [mergeCD_not_cd hnc] at h
          by_cases hw : (ind i).isEmpty = true
          · rw [if_pos hw] at h
            exact absurd h (hnc d r2)
          · rw [if_neg hw] at h
            intro c hc
            obtain ⟨h1, h2⟩ := List.cons.inj h
            injection h1 with hd
            rw [← hd] at hc
            rw [ind_spc c hc]
            rfl
        by_cases htxt : text.isEmpty = true
        · have htnil : text = [] := by simpa using htxt
          subst htnil
          rw [if_pos (show List.isEmpty ([] : Str) = true from rfl)]
          rw [buildTokens_mergeCD_ws (by decide)]
          rw [ih.2 children hsz hch (i + 1) _ _ st root]
          simp only [List.nil_append]
          exact build_CLO tag attrs [] children i cont st root
        · rw [if_neg htxt]
          have htext : trimSpace text = text := eq_of_beq htrim
          have htne : text ≠ [] := by
            intro h0; rw [h0] at htxt; exact htxt rfl
          have hsh : ('\n' :: (ind (i + 1) ++ text ++ ['\n']))
              = ('\n' :: ind (i + 1)) ++ (text ++ ['\n']) := by
            simp [List.append_assoc]
          rw [hsh]
          rw [buildTokens_mergeCD_text
            (by intro c hc
                rcases List.mem_cons.mp hc with h1 | h2
                · rw [h1]; rfl
                · rw [ind_spc c h2]; rfl)
            (by decide) htext htne
            (childrenToks_leadws children (i + 1) hCLO) _ _ root]
          rw [ih.2 children hsz hch (i + 1) _ _ st root]
          simp only [List.nil_append]
          exact build_CLO tag attrs text children i cont st root
    · intro cs hle hwf i cont f fs root
      cases cs with
      | nil =>
        rw [show childrenToks [] i cont = cont from rfl, List.append_nil]
      | cons c cs2 =>
        have hszc : sizeOf c ≤ n := by
          have h := hle
          simp only [List.cons.sizeOf_spec] at h
          have h1 : 0 < sizeOf cs2 := by cases cs2 <;> simp
          omega
        have hszs : sizeOf cs2 ≤ n := by
          have h := hle
          simp only [List.cons.sizeOf_spec] at h
          have h1 : 0 < sizeOf c := by
            obtain ⟨tg, a, tx, ch⟩ := c
            simp only [XmlTree.node.sizeOf_spec]; omega
          omega
        rw [wfListB] at hwf
        simp only [Bool.and_eq_true] at hwf
        obtain ⟨hwfc, hwfcs⟩ := hwf
        rw [childrenToks]
        rw [ih.1 c hszc hwfc i _ (f :: fs) root]
        rw [show pushChild c (f :: fs)
            = { f with children := f.children ++ [c] } :: fs from rfl,
          show pushRoot c (f :: fs) root = root from rfl]
        rw [ih.2 cs2 hszs hwfcs i cont _ fs root]
        simp [List.append_assoc]

theorem build_nodeToks (t : XmlTree) (hwf : wfB t = true) (i : Nat)
    (cont : List Token) (st : List Frame) (root : Option XmlTree) :
    buildTokens (nodeToks t i cont) st root
      = buildTokens cont (pushChild t st) (pushRoot t st root) :=
  (build_strong (sizeOf t)).1 t (Nat.le_refl _) hwf i cont st root

end XmlSer
namespace XmlSer

theorem rc_ne {c : Char} (h : c ≠ '<') (s : Str) :
    removeCommentsGo (c :: s) = c :: removeCommentsGo s := by
  rw [removeCommentsGo.eq_def]
  split
  · rename_i r heq
    exact absurd (List.cons.inj heq).1 h
  · rename_i c2 r heq
    obtain ⟨h1, h2⟩ := List.cons.inj heq
    subst h1; subst h2
    rfl
  · rename_i heq
    exact absurd heq (by simp)

theorem rc_lt {c : Char} (h : c ≠ '!') (s : Str) :
    removeCommentsGo ('<' :: c :: s) = '<' :: removeCommentsGo (c :: s) := by
  rw [removeCommentsGo.eq_def]
  split
  · rename_i r heq
    obtain ⟨-, h2⟩ := List.cons.inj heq
    exact absurd (List.cons.inj h2).1 h
  · rename_i c2 r heq
    obtain ⟨h1, h2⟩ := List.cons.inj heq
    subst h1; subst h2
    rfl
  · rename_i heq
    exact absurd heq (by simp)

theorem rc_no_lt {s : Str} (h : ∀ c ∈ s, c ≠ '<') :
    ∀ rest : Str, removeCommentsGo (s ++ rest) = s ++ removeCommentsGo rest := by
  induction s with
  | nil => intro rest; rw [List.nil_append, List.nil_append]
  | cons c r ih =>
    intro rest
    rw [List.cons_append, rc_ne (h c (List.mem_cons_self c r)),
      ih (fun x hx => h x (List.mem_cons_of_mem _ hx)), List.cons_append]

theorem serializeAttrs_no_lt {attrs : List (Str × Str)}
    (h : ∀ p ∈ attrs, goodNameB p.1 = true) :
    ∀ c ∈ serializeAttrs attrs, c ≠ '<' := by
  induction attrs with
  | nil => intro c hc; simp [serializeAttrs] at hc
  | cons p ps ih =>
    obtain ⟨k, v⟩ := p
    intro c hc
    rw [serializeAttrs] at hc
    rcases List.mem_cons.mp hc with rfl | hc2
    · decide
    · rcases List.mem_append.mp hc2 with hk2 | hc3
      · exact (isAlphanum_ne
          ((goodNameB_elim (h (k, v) (List.mem_cons_self _ _))).2 c hk2)).1
      · rcases List.mem_cons.mp hc3 with rfl | hc4
        · decide
        · rcases List.mem_cons.mp hc4 with rfl | hc5
          · decide
          · rcases List.mem_append.mp hc5 with he | hc6
            · exact (escape_clean v c he).1
            · rcases List.mem_cons.mp hc6 with rfl | hc7
              · decide
              · exact ih (fun p hp => h p (List.mem_cons_of_mem _ hp)) c hc7

theorem rc_strong (n : Nat) :
    (∀ t : XmlTree, sizeOf t ≤ n → wfB t = true → ∀ (i : Nat) (rest : Str),
      removeCommentsGo (serializeNode t i ++ rest)
        = serializeNode t i ++ removeCommentsGo rest) ∧
    (∀ cs : List XmlTree, sizeOf cs ≤ n → wfListB cs = true → ∀ (i : Nat) (rest : Str),
      removeCommentsGo (serializeChildren cs i ++ rest)
        = serializeChildren cs i ++ removeCommentsGo rest) := by
  induction n with
  | zero =>
    constructor
    · intro t hle
      obtain ⟨tag, attrs, text, children⟩ := t
      exfalso
      have : 0 < sizeOf (XmlTree.node tag attrs text children) := by
        simp only [XmlTree.node.sizeOf_spec]; omega
      omega
    · intro cs hle
      exfalso
      have : 0 < sizeOf cs := by cases cs <;> simp
      omega
  | succ n ih =>
    constructor
    · intro t hle hwf i rest
      obtain ⟨tag, attrs, text, children⟩ := t
      have hsz : sizeOf children ≤ n := by
        have h := hle
        simp only [XmlTree.node.sizeOf_spec] at h
        have h1 : 0 < sizeOf tag := by
          cases tag <;> { simp only [List.nil.sizeOf_spec, List.cons.sizeOf_spec]; omega }
        omega
      rw [wfB] at hwf
      simp only [Bool.and_eq_true] at hwf
      obtain ⟨⟨⟨⟨htag, hattrs⟩, hnodup⟩, htrim⟩, hch⟩ := hwf
      have hattrs' : ∀ p ∈ attrs, goodNameB p.1 = true := by
        simpa [List.all_eq_true] using hattrs
      obtain ⟨hne, hall⟩ := goodNameB_elim htag
      obtain ⟨t0, t', rfl⟩ : ∃ t0 t', tag = t0 :: t' := by
        cases tag with
        | nil => exact absurd rfl hne
        | cons a b => exact ⟨a, b, rfl⟩
      have ht0a := hall t0 (List.mem_cons_self _ _)
      have ht0lt : t0 ≠ '<' := (isAlphanum_ne ht0a).1
      have ht0bang : t0 ≠ '!' := (isAlphanum_ne ht0a).2.2.2.2.2.1
      have ht' : ∀ c ∈ t', c ≠ '<' :=
        fun c hc => (isAlphanum_ne (hall c (List.mem_cons_of_mem _ hc))).1
      have hind : ∀ j : Nat, ∀ c ∈ ind j, c ≠ '<' :=
        fun j c hc => by rw [ind_spc c hc]; decide
      have hsA := serializeAttrs_no_lt hattrs'
      rw [serializeNode]
      by_cases hec : (text.isEmpty && children.isEmpty) = true
      · rw [if_pos hec]
        simp only [List.append_assoc, List.cons_append, List.nil_append]
        rw [rc_no_lt (hind i), rc_lt ht0bang, rc_ne ht0lt, rc_no_lt ht', rc_no_lt hsA,
          rc_ne (by decide : '/' ≠ '<'), rc_ne (by decide : '>' ≠ '<'),
          rc_ne (by decide : '\n' ≠ '<')]
      · rw [if_neg hec]
        simp only [List.append_assoc, List.cons_append, List.nil_append]
        rw [rc_no_lt (hind i), rc_lt ht0bang, rc_ne ht0lt, rc_no_lt ht', rc_no_lt hsA,
          rc_ne (by decide : '>' ≠ '<'), rc_ne (by decide : '\n' ≠ '<')]
        by_cases htxt : text.isEmpty = true
        · have htnil : text = [] := by simpa using htxt
          subst htnil
          rw [if_pos (show List.isEmpty ([] : Str) = true from rfl)]
          simp only [List.nil_append]
          rw [ih.2 children hsz hch (i + 1), rc_no_lt (hind i), rc_lt
            (by decide : '/' ≠ '!'), rc_ne (by decide : '/' ≠ '<'), rc_ne ht0lt,
            rc_no_lt ht', rc_ne (by decide : '>' ≠ '<'), rc_ne (by decide : '\n' ≠ '<')]
        · rw [if_neg htxt]
          simp only [List.append_assoc, List.cons_append, List.nil_append]
          rw [rc_no_lt (hind (i + 1)), rc_no_lt (fun c hc => (escape_clean text c hc).1),
            rc_ne (by decide : '\n' ≠ '<')]
          rw [ih.2 children hsz hch (i + 1), rc_no_lt (hind i), rc_lt
            (by decide : '/' ≠ '!'), rc_ne (by decide : '/' ≠ '<'), rc_ne ht0lt,
            rc_no_lt ht', rc_ne (by decide : '>' ≠ '<'), rc_ne (by decide : '\n' ≠ '<')]
    · intro cs hle hwf i rest
      cases cs with
      | nil => rw [show serializeChildren [] i = [] from rfl, List.nil_append,
          List.nil_append]
      | cons c cs2 =>
        have hszc : sizeOf c ≤ n := by
          have h := hle
          simp only [List.cons.sizeOf_spec] at h
          have h1 : 0 < sizeOf cs2 := by cases cs2 <;> simp
          omega
        have hszs : sizeOf cs2 ≤ n := by
          have h := hle
          simp only [List.cons.sizeOf_spec] at h
          have h1 : 0 < sizeOf c := by
            obtain ⟨tg, a, tx, ch⟩ := c
            simp only [XmlTree.node.sizeOf_spec]; omega
          omega
        rw [wfListB] at hwf
        simp only [Bool.and_eq_true] at hwf
        obtain ⟨hwfc, hwfcs⟩ := hwf
        rw [serializeChildren, List.append_assoc, ih.1 c hszc hwfc i,
          ih.2 cs2 hszs hwfcs i, List.append_assoc]

end XmlSer
namespace XmlSer

theorem tokenize_header (s : Str) :
    tokenize (xmlHeader ++ s) = (tokenize ('\n' :: s)).map (Token.procInst :: ·) := rfl

theorem rc_header (s : Str) :
    removeCommentsGo (xmlHeader ++ s)
      = '<' :: '?' :: ('x' :: 'm' :: 'l' :: ' ' :: 'v' :: 'e' :: 'r' :: 's' :: 'i' ::
          'o' :: 'n' :: '=' :: '"' :: '1' :: '.' :: '0' :: '"' :: ' ' :: 'e' :: 'n' ::
          'c' :: 'o' :: 'd' :: 'i' :: 'n' :: 'g' :: '=' :: '"' :: 'U' :: 'T' :: 'F' ::
          '-' :: '8' :: '"' :: '?' :: '>' :: ['\n']
          ++ removeCommentsGo s) := by
  rw [show xmlHeader ++ s = '<' :: '?' ::
      (('x' :: 'm' :: 'l' :: ' ' :: 'v' :: 'e' :: 'r' :: 's' :: 'i' :: 'o' :: 'n' ::
        '=' :: '"' :: '1' :: '.' :: '0' :: '"' :: ' ' :: 'e' :: 'n' :: 'c' :: 'o' ::
        'd' :: 'i' :: 'n' :: 'g' :: '=' :: '"' :: 'U' :: 'T' :: 'F' :: '-' :: '8' ::
        '"' :: '?' :: '>' :: ['\n']) ++ s) from rfl]
  rw [rc_lt (by decide : '?' ≠ '!'), rc_ne (by decide : '?' ≠ '<'),
    rc_no_lt (by decide)]

theorem removeComments_toXML (t : XmlTree) (h : wfB t = true) :
    removeCommentsGo (ToXML t) = ToXML t := by
  rw [ToXML, rc_header]
  have h1 := (rc_strong (sizeOf t)).1 t (Nat.le_refl _) h 0 []
  rw [List.append_nil, show removeCommentsGo [] = [] from rfl, List.append_nil] at h1
  rw [h1]
  rfl

theorem buildTokens_toXML (t : XmlTree) (h : wfB t = true) :
    buildTokens (Token.procInst :: mergeCD ['\n'] (nodeToks t 0 [])) [] none
      = some (some t) := by
  rw [buildTokens_pi, buildTokens_mergeCD_ws (by decide),
    build_nodeToks t h 0 [] [] none]
  rfl

theorem tokenize_toXML (t : XmlTree) (h : wfB t = true) :
    tokenize (ToXML t)
      = some (Token.procInst :: mergeCD ['\n'] (nodeToks t 0 [])) := by
  rw [ToXML, tokenize_header]
  have htk0 : tokenize ([] : Str) = some [] := rfl
  have hhd0 : ([] : Str).head? = some '<' →
      ∀ d r2, ([] : List Token) ≠ Token.chardata d :: r2 := by
    intro hx; exact absurd hx (by simp)
  have hT := tokenize_serializeNode t h 0 htk0 hhd0
  rw [List.append_nil] at hT
  have hW := @tokenize_app_ws ['\n'] (by decide) _ _ hT
    (fun _ => nodeToks_zero_start t [])
  rw [show (['\n'] : Str) ++ serializeNode t 0 = '\n' :: serializeNode t 0 from rfl] at hW
  rw [hW]
  rfl

/-- C9 (amended): for every tree accepted by the serializer whose tag and
attribute names are non-empty alphanumeric runs, whose attribute keys are
unique, and whose every text payload equals its whitespace-trimmed form,
parsing the string produced by `ToXML` yields exactly the original tree —
tags, attribute key-value pairs, text payloads and child order all equal.
The trimmed-text restriction is necessary: see the counterexample. -/
theorem C9_serialize_parse_roundtrip_amended (t : XmlTree) (h : wfB t = true) :
    parseXMLContent (ToXML t) = some t := by
  simp only [parseXMLContent]
  rw [removeComments_toXML t h]
  have hne : (ToXML t).isEmpty = false := rfl
  rw [if_neg (by rw [hne]; exact Bool.false_ne_true)]
  rw [tokenize_toXML t h]
  simp only [buildTokens_toXML t h]

/-- C9 (counterexample to the claim as stated): the serializer accepts the
single-element tree `exC9` whose text payload is `" x"` (leading space), but
parsing its serialized form trims the char data, so the round trip returns a
tree whose text is `"x"`, not the original tree. -/
theorem C9_roundtrip_counterexample : parseXMLContent (ToXML exC9) ≠ some exC9 := by
  intro h
  have h3 := congrArg (Option.map XmlTree.text) h
  have h4 : (parseXMLContent (ToXML exC9)).map XmlTree.text = some ['x'] := rfl
  rw [h4] at h3
  simp only [Option.map_some', Option.some.injEq] at h3
  have h5 : XmlTree.text exC9 = [' ', 'x'] := rfl
  rw [h5] at h3
  exact absurd h3 (by decide)

/-- C9 witness: the amended round-trip theorem applied to a concrete
well-formed document with attributes (one value carrying an `&` that the
serializer escapes), text and nesting. -/
theorem C9_serialize_parse_roundtrip_amended_witness :
    wfB exC9wf = true ∧ parseXMLContent (ToXML exC9wf) = some exC9wf :=
  ⟨by decide, C9_serialize_parse_roundtrip_amended exC9wf (by decide)⟩

end XmlSer
namespace XmlEd

/-- C8: identifier uniqueness is not preserved by sequences of successful
structural commands and their undos.  Starting from the accurately indexed
document `root → a → b`, the three successful commands `EditId("a","")`,
`EditId("b","c")` and `EditId("","b")` followed by two `Undo`s leave both
non-root elements carrying the id `"b"`: the third command's undo is a silent
no-op (its saved previous id is the empty-string sentinel the undo guard
treats as never-executed), and the second command's undo then restores `"b"`
without checking that the id has been taken, overwriting its index entry. -/
theorem C8_successful_editIds_and_undos_break_id_uniqueness :
    (idsUnique (treeIdsOf xC8) = true ∧ idMapMatchesTree xC8 = true)
    ∧ (((EditId xC8 "a" "").bind (fun x => EditId x "b" "c")).bind
        (fun x => EditId x "" "b")).map
          (fun x => (x.undoStack.map Cmd.IsExecuted, x.redoStack))
        = some ([true, true, true], [])
    ∧ (((((EditId xC8 "a" "").bind (fun x => EditId x "b" "c")).bind
        (fun x => EditId x "" "b")).bind UndoTop).bind UndoTop).map
          (fun x => (idsUnique (treeIdsOf x), treeIdsOf x))
        = some (false, ["root", "b", "b"]) := by
  exact ⟨⟨by decide, by decide⟩, by decide, by decide⟩

end XmlEd
